import Mathlib

/-!
Shallow embedding of the rust-opentimestamps library (src/ser.rs, src/op.rs,
src/attestation.rs, src/timestamp.rs) and proofs about its specification.

Modelling conventions:
* Rust byte streams (`R: Read`) are modelled as `List Nat` of byte values; reading
  consumes a prefix and returns the remaining suffix.
* Rust `Result<T, Error>` is modelled as `Except Err (T × List Nat)` carrying the
  remaining stream.  The constructor `Err.panicked` models a Rust panic (such as
  the debug-mode shift-amount overflow in `read_uint`), which is distinct from
  every library `Error` value; the other constructors mirror `error.rs` exactly
  (`Err.ioError` stands for `Error::Io`, whose payload we do not need).
* Rust `usize` arithmetic is 64-bit: shifts truncate to 64 bits (`% 2 ^ 64`) and a
  shift by an amount `≥ 64` panics, exactly as in `read_uint`.
-/

namespace OTS

/-- Library-wide error type, mirroring `error.rs`, with one extra constructor
`panicked` that models a Rust panic (which aborts instead of returning `Error`). -/
inductive Err where
  | stackOverflow
  | invalidUriChar (c : Nat)
  | badDigestTag (t : Nat)
  | badOpTag (t : Nat)
  | badMagic (bs : List Nat)
  | badVersion (v : Nat)
  | badLength (min max val : Nat)
  | trailingBytes
  | utf8
  | ioError
  | panicked
deriving DecidableEq

/-- Magic bytes that every proof must start with (`ser.rs`). -/
def MAGIC : List Nat :=
  [0x00, 0x4f, 0x70, 0x65, 0x6e, 0x54, 0x69, 0x6d, 0x65, 0x73, 0x74, 0x61, 0x6d,
   0x70, 0x73, 0x00, 0x00, 0x50, 0x72, 0x6f, 0x6f, 0x66, 0x00, 0xbf, 0x89, 0xe2,
   0xe8, 0x84, 0xe8, 0x92, 0x94]

/-- Major version of timestamp files we understand (`ser.rs`). -/
def VERSION : Nat := 1

namespace Deserializer

/-- Reads a single byte from the reader (`Deserializer::read_byte`); a short read
is an I/O error. -/
def read_byte : List Nat → Except Err (Nat × List Nat)
  | [] => .error .ioError
  | b :: rest => .ok (b, rest)

/-- Loop body of `Deserializer::read_uint`.  Each iteration reads one byte, then
performs `ret |= ((byte & 0x7f) as usize) << shift`: on a 64-bit target the shift
panics (debug mode) when `shift ≥ 64`, and otherwise truncates to 64 bits.  The
top bit of the byte is the continue bit; `shift` grows by 7 per iteration. -/
def read_uint_go (ret shift : Nat) : List Nat → Except Err (Nat × List Nat)
  | [] => .error .ioError
  | byte :: rest =>
    if 64 ≤ shift then .error .panicked
    else
      let ret' := ret ||| (((byte &&& 0x7f) <<< shift) % (2 ^ 64))
      if byte &&& 0x80 = 0 then .ok (ret', rest)
      else read_uint_go ret' (shift + 7) rest

/-- Deserializes an unsigned integer (`Deserializer::read_uint`). -/
def read_uint (s : List Nat) : Except Err (Nat × List Nat) :=
  read_uint_go 0 0 s

/-- Deserializes a fixed number of bytes (`Deserializer::read_fixed_bytes`). -/
def read_fixed_bytes (n : Nat) (s : List Nat) : Except Err (List Nat × List Nat) :=
  if n ≤ s.length then .ok (s.take n, s.drop n) else .error .ioError

/-- Deserializes a variable number of bytes (`Deserializer::read_bytes`): a
`uint` length, checked against `[min, max]`, then that many bytes. -/
def read_bytes (min max : Nat) (s : List Nat) : Except Err (List Nat × List Nat) :=
  match read_uint s with
  | .error e => .error e
  | .ok (n, s₁) =>
    if n < min ∨ max < n then .error (.badLength min max n)
    else read_fixed_bytes n s₁

/-- Checks that there is no trailing data (`Deserializer::check_eof`). -/
def check_eof : List Nat → Except Err Unit
  | [] => .ok ()
  | _ :: _ => .error .trailingBytes

/-- Reads the magic bytes and checks them (`Deserializer::read_magic`). -/
def read_magic (s : List Nat) : Except Err (Unit × List Nat) :=
  match read_fixed_bytes MAGIC.length s with
  | .error e => .error e
  | .ok (recv, s₁) => if recv = MAGIC then .ok ((), s₁) else .error (.badMagic recv)

/-- Reads the version and checks it (`Deserializer::read_version`). -/
def read_version (s : List Nat) : Except Err (Unit × List Nat) :=
  match read_uint s with
  | .error e => .error e
  | .ok (v, s₁) => if v = VERSION then .ok ((), s₁) else .error (.badVersion v)

end Deserializer

namespace Serializer

/-- Writes a single byte (`Serializer::write_byte`). -/
def write_byte (b : Nat) : List Nat := [b]

/-- Loop of `Serializer::write_uint` for `n > 0`: emit `(n as u8) | 0x80` while
`n > 0x7f`, else `n as u8`, then `n >>= 7`, until `n = 0`.  The loop runs at most
`n` times since `n >>> 7 < n` for `n > 0`, so the structural fuel `fuel = n`
supplied by `write_uint` never runs out and the fuel branch is unreachable. -/
def write_uint_go (fuel n : Nat) : List Nat :=
  match fuel, n with
  | 0, _ => []
  | _ + 1, 0 => []
  | fuel + 1, n =>
    (if 0x7f < n then (n % 256) ||| 0x80 else n % 256) :: write_uint_go fuel (n >>> 7)

/-- Writes an unsigned integer (`Serializer::write_uint`): `0` is a single zero
byte, otherwise low-7-bit groups with the continue bit on every non-final byte. -/
def write_uint (n : Nat) : List Nat :=
  if n = 0 then write_byte 0x00 else write_uint_go n n

/-- Writes a fixed number of bytes (`Serializer::write_fixed_bytes`). -/
def write_fixed_bytes (d : List Nat) : List Nat := d

/-- Writes a variable number of bytes (`Serializer::write_bytes`): the length as
a `uint`, then the bytes. -/
def write_bytes (d : List Nat) : List Nat := write_uint d.length ++ write_fixed_bytes d

end Serializer

/-- Maximum length of an op payload (`op.rs`). -/
def MAX_OP_LENGTH : Nat := 4096

/-- Hex digit table of `hex.rs` (`CHARS[i]` as an ASCII code); the source indexes
a 16-entry table, and both index expressions are below 16 for `u8` input bytes,
so the out-of-range value 0 is never produced for byte inputs. -/
def hex_char (n : Nat) : Nat :=
  if n < 10 then 48 + n else if n < 16 then 87 + n else 0

/-- Lowercase-hex rendering of a byte slice as ASCII codes, following
`fmt::Debug for Hexed`: each byte yields `CHARS[b >> 4]` then `CHARS[b & 0x0f]`. -/
def hexlifyBytes : List Nat → List Nat
  | [] => []
  | b :: rest => hex_char (b >>> 4) :: hex_char (b &&& 0x0f) :: hexlifyBytes rest

/-- Modelled from the spec: SHA-1 is computed by the external `rust-crypto`
crate, which is not part of this repository.  `Op::execute` allocates a 20-byte
buffer that the hasher fills in place, so the output length (20) is fixed by the
repository's code while the digest bytes themselves are modelled here as an
unspecified-but-fixed function of the input. -/
def sha1_digest (input : List Nat) : List Nat :=
  (List.range 20).map (fun i => (i + input.foldl (fun a b => a * 31 + b) 7) % 256)

/-- Modelled from the spec: SHA-256 from the external `rust-crypto` crate; only
the 32-byte output length is determined by `Op::execute` (see `sha1_digest`). -/
def sha256_digest (input : List Nat) : List Nat :=
  (List.range 32).map (fun i => (i + input.foldl (fun a b => a * 33 + b) 11) % 256)

/-- Modelled from the spec: RIPEMD-160 from the external `rust-crypto` crate;
only the 20-byte output length is determined by `Op::execute` (see
`sha1_digest`). -/
def ripemd160_digest (input : List Nat) : List Nat :=
  (List.range 20).map (fun i => (i + input.foldl (fun a b => a * 37 + b) 13) % 256)

/-- All the types of operations supported (`op.rs`). -/
inductive Op where
  | sha1
  | sha256
  | ripemd160
  | hexlify
  | reverse
  | append (data : List Nat)
  | prepend (data : List Nat)
deriving DecidableEq

/-- Returns the 8-bit tag identifying the op (`Op::tag`). -/
def Op.tag : Op → Nat
  | .sha1 => 0x02
  | .sha256 => 0x08
  | .ripemd160 => 0x03
  | .hexlify => 0xf3
  | .reverse => 0xf2
  | .append _ => 0xf0
  | .prepend _ => 0xf1

/-- Deserializes an op with the designated tag (`Op::deserialize_with_tag`). -/
def Op.deserialize_with_tag (tag : Nat) (s : List Nat) : Except Err (Op × List Nat) :=
  if tag = 0x02 then .ok (.sha1, s)
  else if tag = 0x08 then .ok (.sha256, s)
  else if tag = 0x03 then .ok (.ripemd160, s)
  else if tag = 0xf3 then .ok (.hexlify, s)
  else if tag = 0xf2 then .ok (.reverse, s)
  else if tag = 0xf0 then
    match Deserializer.read_bytes 1 MAX_OP_LENGTH s with
    | .error e => .error e
    | .ok (d, s₁) => .ok (.append d, s₁)
  else if tag = 0xf1 then
    match Deserializer.read_bytes 1 MAX_OP_LENGTH s with
    | .error e => .error e
    | .ok (d, s₁) => .ok (.prepend d, s₁)
  else .error (.badOpTag tag)

/-- Serializes the op (`Op::serialize`): the tag byte, then for `Append` and
`Prepend` the payload via `write_bytes`. -/
def Op.serialize (o : Op) : List Nat :=
  Serializer.write_byte o.tag ++
    (match o with
     | .append d => Serializer.write_bytes d
     | .prepend d => Serializer.write_bytes d
     | _ => [])

/-- Executes an op on the given data (`Op::execute`). -/
def Op.execute (o : Op) (input : List Nat) : List Nat :=
  match o with
  | .sha1 => sha1_digest input
  | .sha256 => sha256_digest input
  | .ripemd160 => ripemd160_digest input
  | .hexlify => hexlifyBytes input
  | .reverse => input.reverse
  | .append d => input ++ d
  | .prepend d => d ++ input

/-- Size in bytes of the tag identifying the attestation type (`attestation.rs`). -/
def TAG_SIZE : Nat := 8

/-- Maximum length of a URI in a pending attestation (`attestation.rs`). -/
def MAX_URI_LEN : Nat := 1000

/-- Tag indicating a Bitcoin attestation (`attestation.rs`). -/
def BITCOIN_TAG : List Nat := [0x05, 0x88, 0x96, 0x0d, 0x73, 0xd7, 0x19, 0x01]

/-- Tag indicating a pending attestation (`attestation.rs`). -/
def PENDING_TAG : List Nat := [0x83, 0xdf, 0xe3, 0x0d, 0x2e, 0xf9, 0x0c, 0x8e]

/-- An attestation that some data existed at some time (`attestation.rs`).  The
`pending` URI is stored as its UTF-8 bytes, exactly the byte buffer a validated
Rust `String` holds. -/
inductive Attestation where
  | bitcoin (height : Nat)
  | pending (uri : List Nat)
  | unknown (tag : List Nat) (data : List Nat)
deriving DecidableEq

/-- Decodes a byte list as UTF-8 into its scalar values, mirroring the validation
done by Rust's `String::from_utf8` followed by `str::chars` (the standard UTF-8
ranges, rejecting overlong forms, surrogates and values above `U+10FFFF`). -/
def utf8Decode : List Nat → Option (List Nat)
  | [] => some []
  | b :: rest =>
    if b < 0x80 then
      (utf8Decode rest).map (fun cps => b :: cps)
    else if 0xc2 ≤ b ∧ b ≤ 0xdf then
      match rest with
      | b1 :: rest' =>
        if 0x80 ≤ b1 ∧ b1 ≤ 0xbf then
          (utf8Decode rest').map (fun cps => ((b - 0xc0) * 0x40 + (b1 - 0x80)) :: cps)
        else none
      | _ => none
    else if 0xe0 ≤ b ∧ b ≤ 0xef then
      match rest with
      | b1 :: b2 :: rest' =>
        if (if b = 0xe0 then 0xa0 ≤ b1 ∧ b1 ≤ 0xbf
            else if b = 0xed then 0x80 ≤ b1 ∧ b1 ≤ 0x9f
            else 0x80 ≤ b1 ∧ b1 ≤ 0xbf) ∧ (0x80 ≤ b2 ∧ b2 ≤ 0xbf) then
          (utf8Decode rest').map
            (fun cps => ((b - 0xe0) * 0x1000 + (b1 - 0x80) * 0x40 + (b2 - 0x80)) :: cps)
        else none
      | _ => none
    else if 0xf0 ≤ b ∧ b ≤ 0xf4 then
      match rest with
      | b1 :: b2 :: b3 :: rest' =>
        if (if b = 0xf0 then 0x90 ≤ b1 ∧ b1 ≤ 0xbf
            else if b = 0xf4 then 0x80 ≤ b1 ∧ b1 ≤ 0x8f
            else 0x80 ≤ b1 ∧ b1 ≤ 0xbf) ∧
           (0x80 ≤ b2 ∧ b2 ≤ 0xbf) ∧ (0x80 ≤ b3 ∧ b3 ≤ 0xbf) then
          (utf8Decode rest').map
            (fun cps =>
              ((b - 0xf0) * 0x40000 + (b1 - 0x80) * 0x1000 +
                (b2 - 0x80) * 0x40 + (b3 - 0x80)) :: cps)
        else none
      | _ => none
    else none

/-- Permitted URI characters in a pending attestation, as scalar values: the
ranges `'a'..='z'`, `'A'..='Z'`, `'0'..='9'` and `'.' '-' '_' '/' ':'`. -/
def uriCharOk (c : Nat) : Bool :=
  (97 ≤ c && c ≤ 122) || (65 ≤ c && c ≤ 90) || (48 ≤ c && c ≤ 57) ||
  c = 46 || c = 45 || c = 95 || c = 47 || c = 58

/-- Deserializes an arbitrary attestation (`Attestation::deserialize`): an
8-byte tag, a `uint` payload length, then tag dispatch.  Note that for the
Bitcoin and Pending branches the declared length `len` is never used. -/
def Attestation.deserialize (s : List Nat) : Except Err (Attestation × List Nat) :=
  match Deserializer.read_fixed_bytes TAG_SIZE s with
  | .error e => .error e
  | .ok (tag, s₁) =>
    match Deserializer.read_uint s₁ with
    | .error e => .error e
    | .ok (len, s₂) =>
      if tag = BITCOIN_TAG then
        match Deserializer.read_uint s₂ with
        | .error e => .error e
        | .ok (height, s₃) => .ok (.bitcoin height, s₃)
      else if tag = PENDING_TAG then
        match Deserializer.read_bytes 0 MAX_URI_LEN s₂ with
        | .error e => .error e
        | .ok (uri_bytes, s₃) =>
          match utf8Decode uri_bytes with
          | none => .error .utf8
          | some cps =>
            match cps.find? (fun c => ! uriCharOk c) with
            | some c => .error (.invalidUriChar c)
            | none => .ok (.pending uri_bytes, s₃)
      else
        match Deserializer.read_fixed_bytes len s₂ with
        | .error e => .error e
        | .ok (data, s₃) => .ok (.unknown tag data, s₃)

/-- Serializes an attestation (`Attestation::serialize`): the tag bytes, then a
`write_bytes`-framed payload (for Bitcoin the payload is `write_uint(height)`,
for Pending it is `write_bytes(uri)`, for Unknown the stored data verbatim). -/
def Attestation.serialize (a : Attestation) : List Nat :=
  match a with
  | .bitcoin height => Serializer.write_fixed_bytes BITCOIN_TAG ++
      Serializer.write_bytes (Serializer.write_uint height)
  | .pending uri => Serializer.write_fixed_bytes PENDING_TAG ++
      Serializer.write_bytes (Serializer.write_bytes uri)
  | .unknown tag data => Serializer.write_fixed_bytes tag ++ Serializer.write_bytes data

/-- Anti-DoS recursion limit (`timestamp.rs`). -/
def RECURSION_LIMIT : Nat := 256

/-- The actual contents of an execution step (`timestamp.rs`). -/
inductive StepData where
  | fork
  | op (o : Op)
  | attestation (a : Attestation)
deriving DecidableEq

/-- An execution step in a timestamp (`timestamp.rs`): its contents, the output
digest after execution, and the list of steps to execute after this one. -/
inductive Step where
  | mk (data : StepData) (output : List Nat) (next : List Step)

/-- Contents of a step. -/
def Step.data : Step → StepData
  | .mk d _ _ => d

/-- Output digest of a step. -/
def Step.output : Step → List Nat
  | .mk _ o _ => o

/-- Steps to execute after this one. -/
def Step.next : Step → List Step
  | .mk _ _ n => n

/-- Main structure representing a timestamp (`timestamp.rs`). -/
structure Timestamp where
  start_digest : List Nat
  first_step : Step

namespace Timestamp

/-- The tag resolution at the top of `deserialize_step_recurse`: use the
pushed-back tag if one was given, otherwise read the next byte. -/
def tag_or_read_byte (tag? : Option Nat) (s : List Nat) : Except Err (Nat × List Nat) :=
  match tag? with
  | some tag => .ok (tag, s)
  | none => Deserializer.read_byte s

mutual

/-- Deserializes one step in a timestamp (`Timestamp::deserialize_step_recurse`):
check the recursion budget, read the tag unless one was pushed back, then
dispatch on `0x00` (attestation leaf), `0xff` (fork) or an op tag. -/
def deserialize_step_recurse (input_digest : List Nat) (tag? : Option Nat)
    (recursion_limit : Nat) (s : List Nat) : Except Err (Step × List Nat) :=
  if _h : recursion_limit = 0 then .error .stackOverflow
  else
    match tag_or_read_byte tag? s with
    | .error e => .error e
    | .ok (tag, s₁) =>
      if tag = 0x00 then
        match Attestation.deserialize s₁ with
        | .error e => .error e
        | .ok (attest, s₂) => .ok (.mk (.attestation attest) input_digest [], s₂)
      else if tag = 0xff then
        match deserialize_fork_loop input_digest (recursion_limit - 1)
                (s₁.length + 1) s₁ with
        | .error e => .error e
        | .ok (forks, s₂) => .ok (.mk .fork input_digest forks, s₂)
      else
        match Op.deserialize_with_tag tag s₁ with
        | .error e => .error e
        | .ok (op, s₂) =>
          match deserialize_step_recurse (op.execute input_digest) none
                  (recursion_limit - 1) s₂ with
          | .error e => .error e
          | .ok (child, s₃) =>
            .ok (.mk (.op op) (op.execute input_digest) [child], s₃)
termination_by (recursion_limit, 0, 0)

/-- The `while next_tag == 0xff` loop in the fork branch of
`deserialize_step_recurse`: parse a branch with the child budget
`child_limit = recursion_limit - 1`, read the next tag, continue while it is
`0xff`, and parse the final branch with the non-`0xff` tag pushed back.  The
loop is driven by a structural `fuel`; since every iteration consumes at least
two bytes of the stream, the initial fuel `s.length + 1` supplied by
`deserialize_step_recurse` can never be exhausted, so the fuel branch is
unreachable (see `deserialize_fork_loop_fuel`). -/
def deserialize_fork_loop (input_digest : List Nat) (child_limit fuel : Nat)
    (s : List Nat) : Except Err (List Step × List Nat) :=
  match fuel with
  | 0 => .error .ioError
  | fuel + 1 =>
    match deserialize_step_recurse input_digest none child_limit s with
    | .error e => .error e
    | .ok (branch, s₁) =>
      match Deserializer.read_byte s₁ with
      | .error e => .error e
      | .ok (next_tag, s₂) =>
        if next_tag = 0xff then
          match deserialize_fork_loop input_digest child_limit fuel s₂ with
          | .error e => .error e
          | .ok (branches, s₃) => .ok (branch :: branches, s₃)
        else
          match deserialize_step_recurse input_digest (some next_tag) child_limit s₂ with
          | .error e => .error e
          | .ok (last, s₃) => .ok ([branch, last], s₃)
termination_by (child_limit, 1, fuel)

end

/-- Deserializes a timestamp (`Timestamp::deserialize`). -/
def deserialize (digest : List Nat) (s : List Nat) : Except Err (Timestamp × List Nat) :=
  match deserialize_step_recurse digest none RECURSION_LIMIT s with
  | .error e => .error e
  | .ok (first_step, s₁) =>
    .ok ({ start_digest := digest, first_step := first_step }, s₁)

mutual

/-- Serializes one step (`Timestamp::serialize_step_recurse`).  Writing into a
`Vec` cannot fail, but on a malformed tree the Rust code panics (indexing
`next[0]` for an op without a child, or `next.len() - 1` underflowing for a
fork without children); `none` models those panics. -/
def serialize_step_recurse (step : Step) : Option (List Nat) :=
  match step with
  | .mk .fork _ next => serialize_fork_list next
  | .mk (.op o) _ next =>
    match next with
    | [] => none
    | child :: _ =>
      match serialize_step_recurse child with
      | none => none
      | some bs => some (o.serialize ++ bs)
  | .mk (.attestation a) _ _ => some (Serializer.write_byte 0x00 ++ a.serialize)

/-- The fork case of `serialize_step_recurse`: every branch but the last is
preceded by a `0xff` byte; an empty branch list is the Rust panic. -/
def serialize_fork_list : List Step → Option (List Nat)
  | [] => none
  | [last] => serialize_step_recurse last
  | branch :: rest =>
    match serialize_step_recurse branch with
    | none => none
    | some bs =>
      match serialize_fork_list rest with
      | none => none
      | some rs => some (Serializer.write_byte 0xff ++ bs ++ rs)

end

/-- Serializes a timestamp (`Timestamp::serialize`). -/
def serialize (t : Timestamp) : Option (List Nat) :=
  serialize_step_recurse t.first_step

end Timestamp

/-- Type of hash used to produce the document digest (`ser.rs`). -/
inductive DigestType where
  | sha1
  | sha256
  | ripemd160
deriving DecidableEq

/-- Interprets a one-byte tag as a digest type (`DigestType::from_tag`). -/
def DigestType.from_tag (tag : Nat) : Except Err DigestType :=
  if tag = 0x02 then .ok .sha1
  else if tag = 0x03 then .ok .ripemd160
  else if tag = 0x08 then .ok .sha256
  else .error (.badDigestTag tag)

/-- Serializes a digest type by its tag (`DigestType::to_tag`). -/
def DigestType.to_tag : DigestType → Nat
  | .sha1 => 0x02
  | .sha256 => 0x08
  | .ripemd160 => 0x03

/-- The length in bytes of a digest with this hash function
(`DigestType::digest_len`). -/
def DigestType.digest_len : DigestType → Nat
  | .sha1 => 20
  | .sha256 => 32
  | .ripemd160 => 20

/-- Structure representing an info file (`ser.rs`). -/
structure DetachedTimestampFile where
  digest_type : DigestType
  digest : List Nat
  timestamp : Timestamp

/-- Deserializes an info file from a reader (`DetachedTimestampFile::from_reader`):
magic, version, digest-type tag, `digest_len` bytes of initial digest, the
timestamp tree, then an EOF check. -/
def DetachedTimestampFile.from_reader (s : List Nat) : Except Err DetachedTimestampFile :=
  match Deserializer.read_magic s with
  | .error e => .error e
  | .ok (_, s₁) =>
    match Deserializer.read_version s₁ with
    | .error e => .error e
    | .ok (_, s₂) =>
      match Deserializer.read_byte s₂ with
      | .error e => .error e
      | .ok (tag, s₃) =>
        match DigestType.from_tag tag with
        | .error e => .error e
        | .ok digest_type =>
          match Deserializer.read_fixed_bytes digest_type.digest_len s₃ with
          | .error e => .error e
          | .ok (digest, s₄) =>
            match Timestamp.deserialize digest s₄ with
            | .error e => .error e
            | .ok (timestamp, s₅) =>
              match Deserializer.check_eof s₅ with
              | .error e => .error e
              | .ok _ =>
                .ok { digest_type := digest_type, digest := digest,
                      timestamp := timestamp }

/-! ### Invariants of parsed values

These predicates are not part of the Rust source; they record the properties
that `deserialize_step_recurse` guarantees for every tree it returns, and that
the serializer needs in order to reproduce a parseable byte stream. -/

/-- Payload bytes that `Op::serialize` emits after the tag byte. -/
def opPayload : Op → List Nat
  | .append d => Serializer.write_bytes d
  | .prepend d => Serializer.write_bytes d
  | _ => []

/-- Invariant of a parsed op: binary-op payloads respect the length bounds that
`read_bytes 1 MAX_OP_LENGTH` enforced. -/
def GoodOp : Op → Prop
  | .append d => 1 ≤ d.length ∧ d.length ≤ MAX_OP_LENGTH
  | .prepend d => 1 ≤ d.length ∧ d.length ≤ MAX_OP_LENGTH
  | _ => True

/-- The URI bytes pass the validation performed by `Attestation::deserialize`:
they decode as UTF-8 and no scalar value falls outside the permitted set. -/
def uriValidated (uri : List Nat) : Prop :=
  ∃ cps, utf8Decode uri = some cps ∧ cps.find? (fun c => ! uriCharOk c) = none

/-- Invariant of a parsed attestation: a Bitcoin height fits in a `usize`, a
pending URI is short and validated, an unknown tag is 8 bytes and is neither
reserved tag, and unknown data admits a `usize` length. -/
def GoodAttestation : Attestation → Prop
  | .bitcoin height => height < 2 ^ 64
  | .pending uri => uri.length ≤ MAX_URI_LEN ∧ uriValidated uri
  | .unknown tag data =>
      tag.length = TAG_SIZE ∧ tag ≠ BITCOIN_TAG ∧ tag ≠ PENDING_TAG ∧ data.length < 2 ^ 64

/-- Structural invariant of a parsed step: attestations are childless leaves,
ops have exactly one child, forks have at least two branches and their final
branch (which the wire format stores without a leading `0xff`) is not itself a
fork. -/
inductive Good : Step → Prop
  | attestation (a : Attestation) (out : List Nat) :
      GoodAttestation a → Good (.mk (.attestation a) out [])
  | op (o : Op) (out : List Nat) (c : Step) :
      GoodOp o → Good c → Good (.mk (.op o) out [c])
  | fork (out : List Nat) (branches : List Step) :
      2 ≤ branches.length →
      (∀ c, c ∈ branches → Good c) →
      (∀ lc, branches.getLast? = some lc → lc.data ≠ .fork) →
      Good (.mk .fork out branches)

/-- Digest-flow invariant of a parsed step, relative to the digest flowing into
it: an op's output is the op applied to its input and its children see that
output; forks and attestations pass their input through unchanged. -/
inductive StepConsistent : List Nat → Step → Prop
  | attestation (input out : List Nat) (a : Attestation) (next : List Step) :
      out = input → StepConsistent input (.mk (.attestation a) out next)
  | op (input out : List Nat) (o : Op) (next : List Step) :
      out = o.execute input →
      (∀ c, c ∈ next → StepConsistent out c) →
      StepConsistent input (.mk (.op o) out next)
  | fork (input out : List Nat) (next : List Step) :
      out = input →
      (∀ c, c ∈ next → StepConsistent out c) →
      StepConsistent input (.mk .fork out next)

mutual

/-- Minimal recursion budget with which `deserialize_step_recurse` can parse
this step: one for the step itself plus the deepest child requirement. -/
def needed : Step → Nat
  | .mk _ _ next => 1 + neededList next

/-- Maximal `needed` over a list of steps. -/
def neededList : List Step → Nat
  | [] => 0
  | c :: rest => max (needed c) (neededList rest)

end

/-! ### Lemmas about the varint codec -/

/-- The loop of `write_uint` emits at most `fuel` bytes. -/
theorem write_uint_go_length_le (fuel : Nat) : ∀ n, (Serializer.write_uint_go fuel n).length ≤ fuel := by
  induction fuel with
  | zero => intro n; simp [Serializer.write_uint_go]
  | succ fuel ih =>
    intro n
    match n with
    | 0 => simp [Serializer.write_uint_go]
    | n + 1 =>
      simp only [Serializer.write_uint_go, List.length_cons]
      exact Nat.succ_le_succ (ih _)

/-- The encoding of `n` is at most `max 1 n` bytes long. -/
theorem write_uint_length_le (n : Nat) : (Serializer.write_uint n).length ≤ max 1 n := by
  by_cases h : n = 0
  · simp [h, Serializer.write_uint, Serializer.write_byte]
  · simp only [Serializer.write_uint, if_neg h]
    exact le_trans (write_uint_go_length_le n n) (Nat.le_max_right 1 n)

/-- Auxiliary: `a ||| b * 2 ^ k = a + b * 2 ^ k` when `a < 2 ^ k` (disjoint bits). -/
theorem or_mul_two_pow_eq_add {a : Nat} (k b : Nat) (ha : a < 2 ^ k) :
    a ||| b * 2 ^ k = a + b * 2 ^ k := by
  have h := Nat.mul_add_lt_is_or (i := k) (b := a) ha b
  rw [Nat.lor_comm] at h
  rw [Nat.mul_comm (2 ^ k) b] at h
  omega

/-- A byte value below 128 has the continue bit clear. -/
theorem and_128_eq_zero {b : Nat} (h : b < 128) : b &&& 0x80 = 0 := by
  have : b &&& 2 ^ 7 = (b.testBit 7).toNat * 2 ^ 7 := Nat.and_two_pow b 7
  rw [Nat.testBit_lt_two_pow (by omega)] at this
  simpa using this

/-- Masking with `0x7f` is reduction mod 128. -/
theorem and_127_eq_mod {b : Nat} : b &&& 0x7f = b % 128 := by
  have := Nat.and_pow_two_sub_one_eq_mod b 7
  norm_num at this
  exact this

/-- Auxiliary: recombining the low seven bits and the high bits of `m`, shifted
into place, yields `m` shifted: the two summands occupy disjoint bit ranges. -/
theorem split7_or (m shift : Nat) :
    m % 128 * 2 ^ shift ||| m / 128 * 2 ^ (shift + 7) = m * 2 ^ shift := by
  have ha : m % 128 * 2 ^ shift < 2 ^ (shift + 7) := by
    calc m % 128 * 2 ^ shift < 128 * 2 ^ shift :=
          mul_lt_mul_of_pos_right (Nat.mod_lt m (by norm_num)) (pow_pos (by norm_num) shift)
    _ = 2 ^ (shift + 7) := by rw [Nat.pow_add]; ring
  rw [or_mul_two_pow_eq_add (shift + 7) (m / 128) ha]
  calc m % 128 * 2 ^ shift + m / 128 * 2 ^ (shift + 7)
      = (m % 128 + m / 128 * 128) * 2 ^ shift := by rw [Nat.pow_add]; ring
  _ = m * 2 ^ shift := by congr 1; omega

/-- Decoding the bytes that `write_uint`'s loop wrote for `n > 0`, starting from
partial accumulator `ret` and shift position `shift`, yields `ret ||| n <<< shift`. -/
theorem read_uint_go_write_uint_go (fuel : Nat) :
    ∀ n ret shift rest, 0 < n → n ≤ fuel → shift < 64 → n < 2 ^ (64 - shift) →
      Deserializer.read_uint_go ret shift (Serializer.write_uint_go fuel n ++ rest) =
        .ok (ret ||| n <<< shift, rest) := by
  induction fuel with
  | zero => intro n _ _ _ hn hf _ _; omega
  | succ fuel ih =>
    intro n ret shift rest hn hf hshift hbound
    match n, hn with
    | n + 1, _ =>
      have hunfold : Serializer.write_uint_go (fuel + 1) (n + 1) =
          (if 0x7f < n + 1 then ((n + 1) % 256) ||| 0x80 else (n + 1) % 256) ::
            Serializer.write_uint_go fuel ((n + 1) >>> 7) := rfl
      rw [hunfold]
      by_cases hbig : 0x7f < n + 1
      · -- continue bit set; recurse
        rw [if_pos hbig]
        simp only [List.cons_append, Deserializer.read_uint_go]
        rw [if_neg (by omega)]
        have hb7 : ((n + 1) % 256 ||| 0x80) &&& 0x7f = (n + 1) % 128 := by
          rw [Nat.and_distrib_right, and_127_eq_mod, and_127_eq_mod,
            Nat.mod_mod_of_dvd _ (by norm_num : (128 : Nat) ∣ 256)]
          norm_num
        have hb8 : ((n + 1) % 256 ||| 0x80) &&& 0x80 ≠ 0 := by
          intro hzero
          have htb : (((n + 1) % 256 ||| 0x80) &&& 0x80).testBit 7 = Nat.testBit 0 7 := by
            rw [hzero]
          rw [Nat.testBit_and, Nat.testBit_or] at htb
          simp [show Nat.testBit 0x80 7 = true from by decide, Nat.zero_testBit] at htb
        rw [if_neg hb8]
        -- the gap 64 - shift is more than 7 bits since n + 1 ≥ 128 fits in it
        have hgap : shift + 7 < 64 := by
          by_contra hcon
          have h1 : 64 - shift ≤ 7 := by omega
          have h2 : (2 : Nat) ^ (64 - shift) ≤ 2 ^ 7 := Nat.pow_le_pow_right (by norm_num) h1
          omega
        have hlt : ((n + 1) % 128) <<< shift < 2 ^ 64 := by
          rw [Nat.shiftLeft_eq]
          calc (n + 1) % 128 * 2 ^ shift < 128 * 2 ^ shift := by
                have := Nat.mod_lt (n + 1) (y := 128) (by norm_num)
                exact mul_lt_mul_of_pos_right this (pow_pos (by norm_num) shift)
          _ = 2 ^ (shift + 7) := by rw [Nat.pow_add]; ring
          _ ≤ 2 ^ 64 := Nat.pow_le_pow_right (by norm_num) (by omega)
        rw [hb7, Nat.mod_eq_of_lt hlt]
        have hrec := ih ((n + 1) >>> 7) (ret ||| ((n + 1) % 128) <<< shift) (shift + 7) rest
          (by simp only [Nat.shiftRight_eq_div_pow]; norm_num; omega)
          (by have : (n + 1) >>> 7 < n + 1 := by
                simp only [Nat.shiftRight_eq_div_pow]; norm_num; omega
              omega)
          hgap
          (by simp only [Nat.shiftRight_eq_div_pow]
              norm_num
              rw [Nat.div_lt_iff_lt_mul (by norm_num)]
              calc n + 1 < 2 ^ (64 - shift) := hbound
              _ = 2 ^ (64 - (shift + 7)) * 2 ^ 7 := by
                    rw [← Nat.pow_add]
                    congr 1
                    omega
              _ = 2 ^ (64 - (shift + 7)) * 128 := by norm_num)
        simp only [List.append_eq]
        rw [hrec]
        have hkey : ret ||| ((n + 1) % 128) <<< shift ||| ((n + 1) >>> 7) <<< (shift + 7)
            = ret ||| (n + 1) <<< shift := by
          rw [Nat.lor_assoc]
          congr 1
          rw [Nat.shiftLeft_eq, Nat.shiftLeft_eq, Nat.shiftLeft_eq,
            Nat.shiftRight_eq_div_pow]
          have := split7_or (n + 1) shift
          norm_num at this ⊢
          exact this
        rw [hkey]
      · -- final byte
        rw [if_neg hbig]
        have hz : (n + 1) >>> 7 = 0 := by
          simp only [Nat.shiftRight_eq_div_pow]
          norm_num
          omega
        rw [hz]
        have hnil : Serializer.write_uint_go fuel 0 = [] := by
          match fuel with
          | 0 => rfl
          | _ + 1 => rfl
        rw [hnil]
        have hmod : (n + 1) % 256 = n + 1 := Nat.mod_eq_of_lt (by omega)
        rw [hmod]
        simp only [List.nil_append, List.cons_append, Deserializer.read_uint_go]
        rw [if_neg (by omega)]
        have h7 : (n + 1) &&& 0x7f = n + 1 := by
          rw [and_127_eq_mod]; exact Nat.mod_eq_of_lt (by omega)
        have h8 : (n + 1) &&& 0x80 = 0 := and_128_eq_zero (by omega)
        rw [h7, h8, if_pos rfl]
        have : (n + 1) <<< shift < 2 ^ 64 := by
          rw [Nat.shiftLeft_eq]
          calc (n + 1) * 2 ^ shift < 2 ^ (64 - shift) * 2 ^ shift :=
                mul_lt_mul_of_pos_right hbound (pow_pos (by norm_num) shift)
          _ = 2 ^ 64 := by rw [← Nat.pow_add]; congr 1; omega
        rw [Nat.mod_eq_of_lt this]
        simp [List.append_eq]

/-- Varint round-trip: decoding the bytes written for any `n < 2 ^ 64` (with any
suffix) returns exactly `n` and the suffix. -/
theorem read_uint_write_uint {n : Nat} (h : n < 2 ^ 64) (rest : List Nat) :
    Deserializer.read_uint (Serializer.write_uint n ++ rest) = .ok (n, rest) := by
  by_cases h0 : n = 0
  · subst h0
    simp [Serializer.write_uint, Serializer.write_byte, Deserializer.read_uint,
      Deserializer.read_uint_go]
  · have := read_uint_go_write_uint_go n n 0 0 rest (Nat.pos_of_ne_zero h0) le_rfl
      (by norm_num) (by simpa using h)
    simpa [Serializer.write_uint, if_neg h0, Deserializer.read_uint] using this

/-- The result of `read_uint`'s loop fits in a 64-bit word. -/
theorem read_uint_go_lt {s : List Nat} :
    ∀ {ret shift n r}, Deserializer.read_uint_go ret shift s = .ok (n, r) →
      ret < 2 ^ 64 → n < 2 ^ 64 := by
  induction s with
  | nil => intro ret shift n r hok; simp [Deserializer.read_uint_go] at hok
  | cons b rest ih =>
    intro ret shift n r hok hret
    rw [Deserializer.read_uint_go] at hok
    by_cases hs : 64 ≤ shift
    · rw [if_pos hs] at hok; cases hok
    · rw [if_neg hs] at hok
      have hor : ret ||| ((b &&& 0x7f) <<< shift) % 2 ^ 64 < 2 ^ 64 :=
        Nat.or_lt_two_pow hret (Nat.mod_lt _ (by norm_num))
      by_cases hb : b &&& 0x80 = 0
      · rw [if_pos hb] at hok
        cases hok
        exact hor
      · rw [if_neg hb] at hok
        exact ih hok hor

/-- The result of `read_uint` fits in a 64-bit word. -/
theorem read_uint_lt {s : List Nat} {n : Nat} {r : List Nat}
    (h : Deserializer.read_uint s = .ok (n, r)) : n < 2 ^ 64 :=
  read_uint_go_lt h (by norm_num)

/-! ### Lemmas about reading byte runs -/

/-- A successful `read_fixed_bytes` returns exactly `n` bytes, which prefix the
input stream. -/
theorem read_fixed_bytes_ok {n : Nat} {s d r : List Nat}
    (h : Deserializer.read_fixed_bytes n s = .ok (d, r)) :
    d.length = n ∧ s = d ++ r := by
  unfold Deserializer.read_fixed_bytes at h
  by_cases hle : n ≤ s.length
  · rw [if_pos hle] at h
    cases h
    exact ⟨by rw [List.length_take]; omega, (List.take_append_drop n s).symm⟩
  · rw [if_neg hle] at h
    cases h

/-- Reading back exactly the bytes just written, with any suffix. -/
theorem read_fixed_bytes_append (d rest : List Nat) :
    Deserializer.read_fixed_bytes d.length (d ++ rest) = .ok (d, rest) := by
  unfold Deserializer.read_fixed_bytes
  rw [if_pos (by simp), List.take_left, List.drop_left]

/-- A successful `read_bytes min max` returns between `min` and `max` bytes,
and the length fits in a `usize`. -/
theorem read_bytes_ok {min max : Nat} {s d r : List Nat}
    (h : Deserializer.read_bytes min max s = .ok (d, r)) :
    min ≤ d.length ∧ d.length ≤ max ∧ d.length < 2 ^ 64 := by
  unfold Deserializer.read_bytes at h
  split at h
  · cases h
  · rename_i n s₁ hru
    split at h
    · cases h
    · rename_i hbad
      obtain ⟨hlen, -⟩ := read_fixed_bytes_ok h
      have h64 := read_uint_lt hru
      refine ⟨by omega, by omega, by omega⟩

/-- Round-trip through `write_bytes` / `read_bytes` for payloads within the
declared bounds. -/
theorem read_bytes_write_bytes {d : List Nat} (h64 : d.length < 2 ^ 64)
    {min max : Nat} (hmin : min ≤ d.length) (hmax : d.length ≤ max) (rest : List Nat) :
    Deserializer.read_bytes min max (Serializer.write_bytes d ++ rest) = .ok (d, rest) := by
  unfold Deserializer.read_bytes Serializer.write_bytes Serializer.write_fixed_bytes
  simp only [List.append_assoc, read_uint_write_uint h64]
  rw [if_neg (by omega), read_fixed_bytes_append]

/-! ### Lemmas about the op codec -/

/-- Op tags are never the attestation tag `0x00` or the fork tag `0xff`. -/
theorem op_tag_ne (o : Op) : o.tag ≠ 0x00 ∧ o.tag ≠ 0xff := by
  cases o <;> simp [Op.tag]

/-- Serialized form of an op: its tag byte followed by its payload bytes. -/
theorem op_serialize_eq (o : Op) : o.serialize = o.tag :: opPayload o := by
  cases o <;> rfl

/-- Every op produced by `deserialize_with_tag` satisfies `GoodOp`. -/
theorem op_deserialize_good {t : Nat} {s : List Nat} {o : Op} {r : List Nat}
    (h : Op.deserialize_with_tag t s = .ok (o, r)) : GoodOp o := by
  unfold Op.deserialize_with_tag at h
  split_ifs at h
  · cases h; trivial
  · cases h; trivial
  · cases h; trivial
  · cases h; trivial
  · cases h; trivial
  · split at h
    · cases h
    · rename_i d s₁ hrb
      cases h
      obtain ⟨ha, hb, -⟩ := read_bytes_ok hrb
      exact ⟨ha, hb⟩
  · split at h
    · cases h
    · rename_i d s₁ hrb
      cases h
      obtain ⟨ha, hb, -⟩ := read_bytes_ok hrb
      exact ⟨ha, hb⟩

/-- Parsing the payload written for a good op (with the tag already consumed)
returns the op and leaves the suffix. -/
theorem op_payload_parse {o : Op} (hgood : GoodOp o) (rest : List Nat) :
    Op.deserialize_with_tag o.tag (opPayload o ++ rest) = .ok (o, rest) := by
  cases o with
  | sha1 => rfl
  | sha256 => rfl
  | ripemd160 => rfl
  | hexlify => rfl
  | reverse => rfl
  | append d =>
    obtain ⟨h1, h2⟩ := hgood
    have h64 : d.length < 2 ^ 64 := by unfold MAX_OP_LENGTH at h2; omega
    simp only [Op.tag, opPayload, Op.deserialize_with_tag]
    norm_num
    simp only [read_bytes_write_bytes h64 h1 h2]
  | prepend d =>
    obtain ⟨h1, h2⟩ := hgood
    have h64 : d.length < 2 ^ 64 := by unfold MAX_OP_LENGTH at h2; omega
    simp only [Op.tag, opPayload, Op.deserialize_with_tag]
    norm_num
    simp only [read_bytes_write_bytes h64 h1 h2]

/-! ### Lemmas about the attestation codec -/

/-- Every attestation produced by `Attestation::deserialize` satisfies
`GoodAttestation`. -/
theorem att_deserialize_good {s : List Nat} {a : Attestation} {r : List Nat}
    (h : Attestation.deserialize s = .ok (a, r)) : GoodAttestation a := by
  unfold Attestation.deserialize at h
  split at h
  · cases h
  · rename_i tag s₁ htag
    split at h
    · cases h
    · rename_i len s₂ hlen
      split_ifs at h with hbtc hpend
      · -- Bitcoin
        split at h
        · cases h
        · rename_i height s₃ hht
          cases h
          exact read_uint_lt hht
      · -- Pending
        split at h
        · cases h
        · rename_i uri s₃ huri
          split at h
          · cases h
          · rename_i cps hcps
            split at h
            · cases h
            · rename_i hfind
              cases h
              obtain ⟨-, hle, -⟩ := read_bytes_ok huri
              exact ⟨hle, cps, hcps, hfind⟩
      · -- Unknown
        split at h
        · cases h
        · rename_i data s₃ hdata
          cases h
          obtain ⟨htl, -⟩ := read_fixed_bytes_ok htag
          obtain ⟨hdl, -⟩ := read_fixed_bytes_ok hdata
          exact ⟨htl, hbtc, hpend, by rw [hdl]; exact read_uint_lt hlen⟩

/-- Parsing the serialization of a good attestation returns it unchanged and
leaves the suffix. -/
theorem att_serialize_parse {a : Attestation} (hgood : GoodAttestation a)
    (rest : List Nat) :
    Attestation.deserialize (a.serialize ++ rest) = .ok (a, rest) := by
  cases a with
  | bitcoin height =>
    have h64 : height < 2 ^ 64 := hgood
    have hL : (Serializer.write_uint height).length < 2 ^ 64 := by
      have := write_uint_length_le height
      have : (Serializer.write_uint height).length ≤ max 1 height := this
      omega
    unfold Attestation.serialize Attestation.deserialize Serializer.write_bytes
      Serializer.write_fixed_bytes
    simp only [List.append_assoc]
    rw [show TAG_SIZE = BITCOIN_TAG.length from rfl]
    simp only [read_fixed_bytes_append, read_uint_write_uint hL,
      read_uint_write_uint h64]
    simp
  | pending uri =>
    obtain ⟨hle, cps, hcps, hfind⟩ := hgood
    have h1 : uri.length < 2 ^ 64 := by unfold MAX_URI_LEN at hle; omega
    have hinner : (Serializer.write_bytes uri).length < 2 ^ 64 := by
      unfold Serializer.write_bytes Serializer.write_fixed_bytes
      have := write_uint_length_le uri.length
      rw [List.length_append]
      unfold MAX_URI_LEN at hle
      omega
    unfold Attestation.serialize Attestation.deserialize
    simp only [List.append_assoc]
    rw [show TAG_SIZE = PENDING_TAG.length from rfl,
      show Serializer.write_fixed_bytes PENDING_TAG = PENDING_TAG from rfl]
    simp only [read_fixed_bytes_append]
    have hwb : Serializer.write_bytes (Serializer.write_bytes uri) ++ rest =
        Serializer.write_uint (Serializer.write_bytes uri).length ++
          (Serializer.write_bytes uri ++ rest) := by
      unfold Serializer.write_bytes Serializer.write_fixed_bytes
      simp [List.append_assoc]
    rw [hwb]
    simp only [read_uint_write_uint hinner]
    rw [if_pos trivial]
    simp only [read_bytes_write_bytes h1 (Nat.zero_le _) hle, hcps, hfind]
    rw [if_neg (show ¬PENDING_TAG = BITCOIN_TAG from by decide)]
  | unknown tag data =>
    obtain ⟨htl, hbtc, hpend, h64⟩ := hgood
    unfold Attestation.serialize Attestation.deserialize Serializer.write_bytes
      Serializer.write_fixed_bytes
    simp only [List.append_assoc]
    rw [show TAG_SIZE = tag.length from htl.symm]
    simp only [read_fixed_bytes_append, read_uint_write_uint h64]
    rw [if_neg hbtc, if_neg hpend]

/-! ### Lemmas about the step parser -/

/-- A zero recursion budget immediately yields `StackOverflow`, before any byte
is read. -/
theorem parse_step_zero (d : List Nat) (t : Option Nat) (s : List Nat) :
    Timestamp.deserialize_step_recurse d t 0 s = .error .stackOverflow := by
  rw [Timestamp.deserialize_step_recurse.eq_def]
  simp

/-- One-step unfolding of `deserialize_step_recurse` for a positive budget. -/
theorem parse_step_succ (d : List Nat) (t : Option Nat) (l : Nat) (s : List Nat) :
    Timestamp.deserialize_step_recurse d t (l + 1) s =
      match Timestamp.tag_or_read_byte t s with
      | .error e => .error e
      | .ok (tag, s₁) =>
        if tag = 0x00 then
          match Attestation.deserialize s₁ with
          | .error e => .error e
          | .ok (attest, s₂) => .ok (.mk (.attestation attest) d [], s₂)
        else if tag = 0xff then
          match Timestamp.deserialize_fork_loop d l (s₁.length + 1) s₁ with
          | .error e => .error e
          | .ok (forks, s₂) => .ok (.mk .fork d forks, s₂)
        else
          match Op.deserialize_with_tag tag s₁ with
          | .error e => .error e
          | .ok (op, s₂) =>
            match Timestamp.deserialize_step_recurse (op.execute d) none l s₂ with
            | .error e => .error e
            | .ok (child, s₃) => .ok (.mk (.op op) (op.execute d) [child], s₃) := by
  rw [Timestamp.deserialize_step_recurse.eq_def]
  rw [dif_neg (Nat.succ_ne_zero l)]
  norm_num

/-- Exhausted loop fuel (never reached from `deserialize_step_recurse`, see
`fork_loop_fuel_irrelevant`). -/
theorem fork_loop_zero (d : List Nat) (cl : Nat) (s : List Nat) :
    Timestamp.deserialize_fork_loop d cl 0 s = .error .ioError := by
  rw [Timestamp.deserialize_fork_loop.eq_def]

/-- One-step unfolding of the fork loop. -/
theorem fork_loop_succ (d : List Nat) (cl fuel : Nat) (s : List Nat) :
    Timestamp.deserialize_fork_loop d cl (fuel + 1) s =
      match Timestamp.deserialize_step_recurse d none cl s with
      | .error e => .error e
      | .ok (branch, s₁) =>
        match Deserializer.read_byte s₁ with
        | .error e => .error e
        | .ok (next_tag, s₂) =>
          if next_tag = 0xff then
            match Timestamp.deserialize_fork_loop d cl fuel s₂ with
            | .error e => .error e
            | .ok (branches, s₃) => .ok (branch :: branches, s₃)
          else
            match Timestamp.deserialize_step_recurse d (some next_tag) cl s₂ with
            | .error e => .error e
            | .ok (last, s₃) => .ok ([branch, last], s₃) := by
  rw [Timestamp.deserialize_fork_loop.eq_def]

/-- With a positive budget, reading the tag from the stream is the same as
pushing it back. -/
theorem parse_step_none_cons {l : Nat} (h : l ≠ 0) (d : List Nat) (b : Nat)
    (s : List Nat) :
    Timestamp.deserialize_step_recurse d none l (b :: s) =
      Timestamp.deserialize_step_recurse d (some b) l s := by
  rw [Timestamp.deserialize_step_recurse.eq_def,
    Timestamp.deserialize_step_recurse.eq_def]
  simp only [dif_neg h, Timestamp.tag_or_read_byte, Deserializer.read_byte]

/-- A step parsed from a pushed-back tag other than `0xff` is never a fork. -/
theorem parse_step_some_not_fork {d : List Nat} {tag l : Nat} {s : List Nat}
    {st : Step} {r : List Nat}
    (h : Timestamp.deserialize_step_recurse d (some tag) l s = .ok (st, r))
    (hff : tag ≠ 0xff) : st.data ≠ .fork := by
  match l with
  | 0 => rw [parse_step_zero] at h; cases h
  | l + 1 =>
    rw [parse_step_succ] at h
    simp only [Timestamp.tag_or_read_byte] at h
    split_ifs at h with h0
    · split at h
      · cases h
      · cases h; simp [Step.data]
    · split at h
      · cases h
      · split at h
        · cases h
        · cases h; simp [Step.data]

/-- Bounding `neededList` by bounding each member. -/
theorem neededList_le {cs : List Step} {l : Nat}
    (h : ∀ c, c ∈ cs → needed c ≤ l) : neededList cs ≤ l := by
  induction cs with
  | nil => rw [neededList]; omega
  | cons c rest ih =>
    rw [neededList]
    have h1 := h c (List.mem_cons_self c rest)
    have h2 := ih (fun x hx => h x (List.mem_cons_of_mem c hx))
    omega

/-- Every tree returned by the parser is structurally good, digest-consistent
with the input digest, and parseable within the budget that produced it. -/
theorem parse_step_good :
    ∀ (l : Nat) (d : List Nat) (t : Option Nat) (s : List Nat) (st : Step)
      (r : List Nat),
      Timestamp.deserialize_step_recurse d t l s = .ok (st, r) →
      Good st ∧ StepConsistent d st ∧ needed st ≤ l := by
  intro l
  induction l with
  | zero => intro d t s st r h; rw [parse_step_zero] at h; cases h
  | succ l ih =>
    intro d t s st r h
    have hloop : ∀ (fuel : Nat) (s' : List Nat) (cs : List Step) (r' : List Nat),
        Timestamp.deserialize_fork_loop d l fuel s' = .ok (cs, r') →
        2 ≤ cs.length ∧
          (∀ c, c ∈ cs → Good c ∧ StepConsistent d c ∧ needed c ≤ l) ∧
          (∀ lc, cs.getLast? = some lc → lc.data ≠ .fork) := by
      intro fuel
      induction fuel with
      | zero =>
        intro s' cs r' hl
        rw [fork_loop_zero] at hl
        cases hl
      | succ fuel ihf =>
        intro s' cs r' hl
        rw [fork_loop_succ] at hl
        split at hl
        · cases hl
        · rename_i branch s₁ hbranch
          split at hl
          · cases hl
          · rename_i next_tag s₂ hnext
            split_ifs at hl with hff
            · -- another 0xff: recurse
              split at hl
              · cases hl
              · rename_i branches s₃ hrest
                injection hl with hpair
                injection hpair with hcs hrr
                subst hcs
                subst hrr
                obtain ⟨hlen, hmem, hlast⟩ := ihf s₂ branches s₃ hrest
                refine ⟨by simp; omega, ?_, ?_⟩
                · intro c hc
                  rcases List.mem_cons.mp hc with hc | hc
                  · exact hc ▸ ih d none s' branch s₁ hbranch
                  · exact hmem c hc
                · intro lc hlc
                  match branches, hlen with
                  | b₁ :: bs, _ =>
                    rw [List.getLast?_cons_cons] at hlc
                    exact hlast lc hlc
            · -- final branch with pushed-back tag
              split at hl
              · cases hl
              · rename_i last s₃ hlastp
                injection hl with hpair
                injection hpair with hcs hrr
                subst hcs
                subst hrr
                refine ⟨by simp, ?_, ?_⟩
                · intro c hc
                  rcases List.mem_cons.mp hc with hc | hc
                  · exact hc ▸ ih d none s' branch s₁ hbranch
                  · rcases List.mem_cons.mp hc with hc | hc
                    · exact hc ▸ ih d (some next_tag) s₂ last s₃ hlastp
                    · cases hc
                · intro lc hlc
                  rw [List.getLast?_cons_cons] at hlc
                  simp [List.getLast?] at hlc
                  subst hlc
                  exact parse_step_some_not_fork hlastp hff
    rw [parse_step_succ] at h
    split at h
    · cases h
    · rename_i tag s₁ htag
      split_ifs at h with h0 h255
      · -- attestation leaf
        split at h
        · cases h
        · rename_i attest s₂ hatt
          cases h
          refine ⟨Good.attestation _ _ (att_deserialize_good hatt), ?_, ?_⟩
          · exact StepConsistent.attestation _ _ _ _ rfl
          · rw [needed, neededList]; omega
      · -- fork
        split at h
        · cases h
        · rename_i forks s₂ hfork
          injection h with hpair
          injection hpair with hst hr
          subst hst
          subst hr
          obtain ⟨hlen, hmem, hlast⟩ := hloop (s₁.length + 1) s₁ forks s₂ hfork
          refine ⟨?_, ?_, ?_⟩
          · exact Good.fork _ _ hlen (fun c hc => (hmem c hc).1) hlast
          · exact StepConsistent.fork _ _ _ rfl (fun c hc => (hmem c hc).2.1)
          · rw [needed]
            have := neededList_le (fun c hc => (hmem c hc).2.2)
            omega
      · -- op
        split at h
        · cases h
        · rename_i op s₂ hop
          split at h
          · cases h
          · rename_i child s₃ hchild
            injection h with hpair
            injection hpair with hst hr
            subst hst
            subst hr
            obtain ⟨hg, hc, hn⟩ := ih (op.execute d) none s₂ child s₃ hchild
            refine ⟨Good.op _ _ _ (op_deserialize_good hop) hg, ?_, ?_⟩
            · refine StepConsistent.op _ _ _ _ rfl ?_
              intro c hcmem
              rcases List.mem_cons.mp hcmem with hcm | hcm
              · subst hcm; exact hc
              · cases hcm
            · rw [needed, neededList, neededList]
              omega

/-! ### Lemmas about the step serializer -/

/-- Unfolding: an attestation leaf serializes as `0x00` then the attestation. -/
theorem ser_att (a : Attestation) (out : List Nat) (next : List Step) :
    Timestamp.serialize_step_recurse (.mk (.attestation a) out next) =
      some (0x00 :: a.serialize) := rfl

/-- Unfolding: a fork serializes via `serialize_fork_list`. -/
theorem ser_fork (out : List Nat) (next : List Step) :
    Timestamp.serialize_step_recurse (.mk .fork out next) =
      Timestamp.serialize_fork_list next := rfl

/-- Unfolding: an op serializes as the op bytes then its first child. -/
theorem ser_op (o : Op) (out : List Nat) (c : Step) (cs : List Step) :
    Timestamp.serialize_step_recurse (.mk (.op o) out (c :: cs)) =
      match Timestamp.serialize_step_recurse c with
      | none => none
      | some bs => some (o.serialize ++ bs) := rfl

/-- Unfolding: a single-branch list serializes as that branch. -/
theorem sfl_single (c : Step) :
    Timestamp.serialize_fork_list [c] = Timestamp.serialize_step_recurse c := rfl

/-- Unfolding: a non-last branch gets a `0xff` marker before it. -/
theorem sfl_cons (c c₂ : Step) (cs : List Step) :
    Timestamp.serialize_fork_list (c :: c₂ :: cs) =
      match Timestamp.serialize_step_recurse c with
      | none => none
      | some bs =>
        match Timestamp.serialize_fork_list (c₂ :: cs) with
        | none => none
        | some rs => some (Serializer.write_byte 0xff ++ bs ++ rs) := rfl

/-- Every step needs at least budget one. -/
theorem needed_pos (st : Step) : 1 ≤ needed st := by
  match st with
  | .mk data out next => rw [needed]; omega

/-- A member's requirement is at most the list requirement. -/
theorem needed_le_neededList {c : Step} {cs : List Step} (h : c ∈ cs) :
    needed c ≤ neededList cs := by
  induction cs with
  | nil => cases h
  | cons x rest ih =>
    rw [neededList]
    rcases List.mem_cons.mp h with h | h
    · rw [h]; omega
    · have := ih h; omega

/-- A branch list whose members all serialize also serializes as a whole. -/
theorem sfl_some : ∀ (cs : List Step),
    (∀ c, c ∈ cs → ∃ b tl, Timestamp.serialize_step_recurse c = some (b :: tl)) →
    cs ≠ [] → ∃ w, Timestamp.serialize_fork_list cs = some w := by
  intro cs
  induction cs with
  | nil => intro _ h; cases h rfl
  | cons c rest ihr =>
    intro hmem _
    cases rest with
    | nil =>
      obtain ⟨b, tl, hs⟩ := hmem c (by simp)
      exact ⟨b :: tl, by rw [sfl_single, hs]⟩
    | cons c₂ bs =>
      obtain ⟨b, tl, hs⟩ := hmem c (by simp)
      obtain ⟨w, hw⟩ := ihr (fun x hx => hmem x (List.mem_cons_of_mem c hx)) (by simp)
      exact ⟨Serializer.write_byte 0xff ++ (b :: tl) ++ w, by rw [sfl_cons, hs, hw]⟩

/-- A good step serializes successfully to a nonempty byte list, whose head is
not `0xff` unless the step is a fork. -/
theorem serialize_good {st : Step} (hgood : Good st) :
    ∃ b tl, Timestamp.serialize_step_recurse st = some (b :: tl) ∧
      (st.data ≠ .fork → b ≠ 0xff) := by
  induction hgood with
  | attestation a out ha =>
    exact ⟨0x00, a.serialize, rfl, fun _ => by norm_num⟩
  | op o out c ho hgc ihc =>
    obtain ⟨b, tl, hser, -⟩ := ihc
    refine ⟨o.tag, opPayload o ++ (b :: tl), ?_, fun _ => (op_tag_ne o).2⟩
    rw [ser_op, hser, op_serialize_eq]
    simp
  | fork out branches hlen hmem hlast ih =>
    match branches, hlen, ih with
    | c₁ :: c₂ :: bs, _, ih =>
      obtain ⟨b₁, t₁, hs₁, -⟩ := ih c₁ (by simp)
      have h₂ : ∃ w, Timestamp.serialize_fork_list (c₂ :: bs) = some w := by
        refine sfl_some (c₂ :: bs) (fun c hc => ?_) (by simp)
        obtain ⟨b, tl, hs, -⟩ := ih c (List.mem_cons_of_mem c₁ hc)
        exact ⟨b, tl, hs⟩
      obtain ⟨w, hw⟩ := h₂
      refine ⟨0xff, (b₁ :: t₁) ++ w, ?_, fun hne => absurd rfl hne⟩
      rw [ser_fork, sfl_cons, hs₁, hw]
      rfl

/-- Serialize-then-parse: the serialization of any good, digest-consistent tree
is accepted by the parser with any sufficient budget, reproducing the tree
exactly and leaving the suffix untouched. -/
theorem serialize_then_parse {st : Step} (hgood : Good st) :
    ∀ (d : List Nat), StepConsistent d st →
    ∀ (l : Nat), needed st ≤ l →
    ∀ (out : List Nat), Timestamp.serialize_step_recurse st = some out →
    ∀ (rest : List Nat),
      Timestamp.deserialize_step_recurse d none l (out ++ rest) = .ok (st, rest) := by
  induction hgood with
  | attestation a out0 ha =>
    intro d hsc l hl out hser rest
    have hout : out0 = d := by cases hsc; assumption
    subst hout
    rw [needed, neededList] at hl
    obtain ⟨l', rfl⟩ : ∃ l', l = l' + 1 := ⟨l - 1, by omega⟩
    rw [ser_att] at hser
    injection hser with hser
    subst hser
    rw [List.cons_append, parse_step_succ]
    simp only [Timestamp.tag_or_read_byte, Deserializer.read_byte]
    rw [if_pos trivial]
    simp only [att_serialize_parse ha]
  | op o out0 c ho hgc ihc =>
    intro d hsc l hl out hser rest
    have hout : out0 = o.execute d := by cases hsc; assumption
    have hscc : StepConsistent out0 c := by
      cases hsc with
      | op _ _ _ _ _ hnext => exact hnext c (by simp)
    rw [needed, neededList, neededList] at hl
    obtain ⟨l', rfl⟩ : ∃ l', l = l' + 1 := ⟨l - 1, by omega⟩
    have hlc : needed c ≤ l' := by omega
    rw [ser_op] at hser
    split at hser
    · cases hser
    · rename_i bs hbs
      injection hser with hser
      subst hser
      have hrec := ihc out0 hscc l' hlc bs hbs rest
      rw [op_serialize_eq]
      rw [List.append_assoc, List.cons_append, parse_step_succ]
      simp only [Timestamp.tag_or_read_byte, Deserializer.read_byte]
      rw [if_neg (op_tag_ne o).1, if_neg (op_tag_ne o).2]
      simp only [op_payload_parse ho]
      rw [← hout]
      simp only [hrec]
  | fork out0 branches hlen hmemgood hlastnf ihmem =>
    intro d hsc l hl out hser rest
    have hout : out0 = d := by cases hsc; assumption
    subst hout
    have hnext : ∀ c, c ∈ branches → StepConsistent out0 c := by
      cases hsc with
      | fork _ _ _ _ hnext => exact hnext
    rw [needed] at hl
    obtain ⟨l', rfl⟩ : ∃ l', l = l' + 1 := ⟨l - 1, by omega⟩
    have hneed : ∀ c, c ∈ branches → needed c ≤ l' := by
      intro c hc
      have := needed_le_neededList hc
      omega
    have hloop : ∀ (cs : List Step) (c : Step),
        (∀ x, x ∈ c :: cs → x ∈ branches) →
        cs ≠ [] →
        (∀ lc, (c :: cs).getLast? = some lc → lc.data ≠ .fork) →
        ∀ w₁ w₂, Timestamp.serialize_step_recurse c = some w₁ →
          Timestamp.serialize_fork_list cs = some w₂ →
        ∀ (fuel : Nat) (rst : List Nat), (w₁ ++ (w₂ ++ rst)).length < fuel →
          Timestamp.deserialize_fork_loop out0 l' fuel (w₁ ++ (w₂ ++ rst)) =
            .ok (c :: cs, rst) := by
      intro cs
      induction cs with
      | nil => intro c _ hne; cases hne rfl
      | cons cnext cs'' ihcs =>
        intro c hsub _ hlastnf' w₁ w₂ hw₁ hw₂ fuel rst hfuel
        obtain ⟨fuel', rfl⟩ : ∃ f, fuel = f + 1 := ⟨fuel - 1, by omega⟩
        have hcmem : c ∈ branches := hsub c (by simp)
        have hcnmem : cnext ∈ branches := hsub cnext (by simp)
        have hparse_c := ihmem c hcmem out0 (hnext c hcmem) l' (hneed c hcmem)
          w₁ hw₁ (w₂ ++ rst)
        rw [fork_loop_succ]
        simp only [hparse_c]
        cases cs'' with
        | nil =>
          rw [sfl_single] at hw₂
          obtain ⟨b₂, t₂, hs₂, hbne⟩ := serialize_good (hmemgood cnext hcnmem)
          have hw₂' : w₂ = b₂ :: t₂ := Option.some.inj (hw₂.symm.trans hs₂)
          subst hw₂'
          have hglast : (c :: [cnext]).getLast? = some cnext := rfl
          have hb₂ne : b₂ ≠ 0xff := hbne (hlastnf' cnext hglast)
          have hl'ne : l' ≠ 0 := by
            have h1 := needed_pos cnext
            have h2 := hneed cnext hcnmem
            omega
          have hpl := ihmem cnext hcnmem out0 (hnext cnext hcnmem) l'
            (hneed cnext hcnmem) (b₂ :: t₂) hs₂ rst
          rw [List.cons_append, parse_step_none_cons hl'ne out0 b₂ (t₂ ++ rst)] at hpl
          rw [List.cons_append]
          simp only [Deserializer.read_byte]
          rw [if_neg hb₂ne]
          simp only [hpl]
        | cons cnext₂ cs₃ =>
          rw [sfl_cons] at hw₂
          split at hw₂
          · cases hw₂
          · rename_i v₁ hv₁
            split at hw₂
            · cases hw₂
            · rename_i v₂ hv₂
              injection hw₂ with hw₂
              subst hw₂
              obtain ⟨b₁, t₁, hb₁, -⟩ := serialize_good (hmemgood c hcmem)
              have hw₁' : w₁ = b₁ :: t₁ := Option.some.inj (hw₁.symm.trans hb₁)
              rw [show Serializer.write_byte 0xff ++ v₁ ++ v₂ ++ rst =
                  0xff :: (v₁ ++ (v₂ ++ rst)) from by simp [Serializer.write_byte]]
              simp only [Deserializer.read_byte]
              first
                | rw [if_pos rfl]
                | rw [if_pos trivial]
              have hsub' : ∀ x, x ∈ cnext :: cnext₂ :: cs₃ → x ∈ branches :=
                fun x hx => hsub x (List.mem_cons_of_mem c hx)
              have hlast' : ∀ lc, (cnext :: cnext₂ :: cs₃).getLast? = some lc →
                  lc.data ≠ .fork := by
                intro lc hlc
                exact hlastnf' lc (by rw [List.getLast?_cons_cons]; exact hlc)
              have hfuel' : (v₁ ++ (v₂ ++ rst)).length < fuel' := by
                subst hw₁'
                simp [Serializer.write_byte] at hfuel
                simp
                omega
              have := ihcs cnext hsub' (by simp) hlast' v₁ v₂ hv₁ hv₂ fuel' rst hfuel'
              simp only [this]
    obtain ⟨c₁, cs', rfl⟩ : ∃ c₁ r, branches = c₁ :: r := by
      match branches, hlen with
      | c₁ :: r, _ => exact ⟨c₁, r, rfl⟩
    have hcs' : cs' ≠ [] := by
      intro hnil
      rw [hnil] at hlen
      simp at hlen
    rw [ser_fork] at hser
    obtain ⟨c₂, bs, rfl⟩ : ∃ c₂ bs, cs' = c₂ :: bs := by
      match cs', hcs' with
      | c₂ :: bs, _ => exact ⟨c₂, bs, rfl⟩
    rw [sfl_cons] at hser
    split at hser
    · cases hser
    · rename_i w₁ hw₁
      split at hser
      · cases hser
      · rename_i w₂ hw₂
        injection hser with hser
        subst hser
        rw [show Serializer.write_byte 0xff ++ w₁ ++ w₂ ++ rest =
            0xff :: (w₁ ++ (w₂ ++ rest)) from by
          simp [Serializer.write_byte]]
        rw [parse_step_succ]
        simp only [Timestamp.tag_or_read_byte, Deserializer.read_byte]
        rw [if_neg (by norm_num), if_pos trivial]
        have := hloop (c₂ :: bs) c₁ (fun x hx => hx) (by simp) hlastnf
          w₁ w₂ hw₁ hw₂ ((w₁ ++ (w₂ ++ rest)).length + 1) rest (by omega)
        simp only [this]

/-! ### Further helper lemmas -/

/-- Reading the magic bytes off a stream that starts with them. -/
theorem read_magic_append (rest : List Nat) :
    Deserializer.read_magic (MAGIC ++ rest) = .ok ((), rest) := by
  unfold Deserializer.read_magic
  simp only [read_fixed_bytes_append]
  rw [if_pos trivial]

/-- Length of the hex rendering: two characters per byte. -/
theorem hexlifyBytes_length (input : List Nat) :
    (hexlifyBytes input).length = 2 * input.length := by
  induction input with
  | nil => rfl
  | cons b rest ih =>
    rw [hexlifyBytes]
    simp only [List.length_cons, ih]
    omega

/-- Parsing a run of at least `l` fork bytes exhausts a budget of `l`. -/
theorem parse_step_replicate_ff : ∀ (l m : Nat) (d : List Nat), l ≤ m →
    Timestamp.deserialize_step_recurse d none l (List.replicate m 0xff) =
      .error .stackOverflow := by
  intro l
  induction l with
  | zero => intro m d _; exact parse_step_zero d none _
  | succ l ih =>
    intro m d hlm
    obtain ⟨m', rfl⟩ : ∃ m', m = m' + 1 := ⟨m - 1, by omega⟩
    rw [List.replicate_succ, parse_step_succ]
    simp only [Timestamp.tag_or_read_byte, Deserializer.read_byte]
    rw [if_neg (by norm_num)]
    first
      | rw [if_pos rfl]
      | rw [if_pos trivial]
    rw [List.length_replicate, fork_loop_succ]
    have := ih m' d (by omega)
    simp only [this]

/-! ### Claims C4, C5, C6 -/

/-- Claim C4: for every unsigned integer `n` in `[0, 2^63)`, decoding with
`read_uint` the bytes produced by `write_uint n` returns `n` (consuming the
whole encoding). -/
theorem claim_C4_varint_round_trip {n : Nat} (h : n < 2 ^ 63) :
    Deserializer.read_uint (Serializer.write_uint n) = .ok (n, []) := by
  have h64 : n < 2 ^ 64 := lt_trans h (by norm_num)
  have := read_uint_write_uint h64 []
  simpa using this

/-- Witness for C4 at `n = 300`. -/
theorem claim_C4_varint_round_trip_witness :
    300 < 2 ^ 63 ∧ Deserializer.read_uint (Serializer.write_uint 300) = .ok (300, []) :=
  ⟨by norm_num, claim_C4_varint_round_trip (by norm_num)⟩

/-- Claim C5: a timestamp stream of 257 nested `0xff` fork bytes fails with
`StackOverflow`: the recursion budget `RECURSION_LIMIT = 256` decrements on
every recursive call and, at the 257th nested step, is zero before a leaf was
reached. -/
theorem claim_C5_stack_overflow :
    Timestamp.deserialize [] (List.replicate 257 0xff) = .error .stackOverflow := by
  unfold Timestamp.deserialize
  have := parse_step_replicate_ff RECURSION_LIMIT 257 [] (by norm_num [RECURSION_LIMIT])
  simp only [this]

/-- Claim C6: `Op::execute` is total and its output length is as specified:
20 bytes for SHA-1 and RIPEMD-160, 32 for SHA-256, twice the input length for
Hexlify, the input length for Reverse, and the input length plus the payload
length for Append and Prepend. -/
theorem claim_C6_execute_length (o : Op) (input : List Nat) :
    (o.execute input).length =
      match o with
      | .sha1 => 20
      | .sha256 => 32
      | .ripemd160 => 20
      | .hexlify => 2 * input.length
      | .reverse => input.length
      | .append d => input.length + d.length
      | .prepend d => input.length + d.length := by
  cases o with
  | sha1 => simp [Op.execute, sha1_digest]
  | sha256 => simp [Op.execute, sha256_digest]
  | ripemd160 => simp [Op.execute, ripemd160_digest]
  | hexlify => simp only [Op.execute]; exact hexlifyBytes_length input
  | reverse => simp [Op.execute]
  | append d => simp [Op.execute]
  | prepend d => simp [Op.execute]; omega

/-! ### Claim C7 -/

/-- Counterexample to claim C7 as stated: the pending-attestation payload
`[0xff]` contains a byte outside the permitted URI set, yet deserialization
fails with the `Utf8` error (from `String::from_utf8`), not `InvalidUriChar`.
The stream is the pending tag, declared length 2, URI length 1, byte `0xff`. -/
theorem claim_C7_counterexample :
    Attestation.deserialize (PENDING_TAG ++ [0x02, 0x01, 0xff]) = .error .utf8 ∧
    ¬∃ c, Attestation.deserialize (PENDING_TAG ++ [0x02, 0x01, 0xff]) =
        .error (.invalidUriChar c) := by
  constructor
  · rfl
  · rintro ⟨c, hc⟩
    rw [show Attestation.deserialize (PENDING_TAG ++ [0x02, 0x01, 0xff]) =
        .error .utf8 from rfl] at hc
    cases hc

/-- Claim C7 (amended): deserializing a pending attestation whose URI payload
is valid UTF-8 and contains a character outside the permitted set fails with
`InvalidUriChar` on the first such character (payloads that are not valid
UTF-8 fail with the `Utf8` error instead, see `claim_C7_counterexample`). -/
theorem claim_C7_invalid_uri_char {L0 : Nat} (hL0 : L0 < 2 ^ 64)
    {payload : List Nat} (hlen : payload.length ≤ MAX_URI_LEN)
    {cps : List Nat} (hdec : utf8Decode payload = some cps)
    {c : Nat} (hbad : cps.find? (fun x => ! uriCharOk x) = some c)
    (rest : List Nat) :
    Attestation.deserialize
        (PENDING_TAG ++ Serializer.write_uint L0 ++
          Serializer.write_bytes payload ++ rest) =
      .error (.invalidUriChar c) ∧ uriCharOk c = false := by
  constructor
  · have h64 : payload.length < 2 ^ 64 := by
      unfold MAX_URI_LEN at hlen
      omega
    unfold Attestation.deserialize
    simp only [List.append_assoc]
    rw [show TAG_SIZE = PENDING_TAG.length from rfl]
    simp only [read_fixed_bytes_append, read_uint_write_uint hL0]
    rw [if_pos trivial]
    simp only [read_bytes_write_bytes h64 (Nat.zero_le _) hlen, hdec, hbad]
    rw [if_neg (show ¬PENDING_TAG = BITCOIN_TAG from by decide)]
  · have := List.find?_some hbad
    simpa using this

/-- Witness for (amended) C7: URI payload `a?b`, whose second character `?`
(code 63) is rejected. -/
theorem claim_C7_invalid_uri_char_witness :
    (5 : Nat) < 2 ^ 64 ∧ ([97, 63, 98] : List Nat).length ≤ MAX_URI_LEN ∧
    utf8Decode [97, 63, 98] = some [97, 63, 98] ∧
    ([97, 63, 98] : List Nat).find? (fun x => ! uriCharOk x) = some 63 ∧
    (Attestation.deserialize
        (PENDING_TAG ++ Serializer.write_uint 5 ++
          Serializer.write_bytes [97, 63, 98] ++ []) =
      .error (.invalidUriChar 63) ∧ uriCharOk 63 = false) :=
  ⟨by norm_num, by decide, by decide, by decide,
    @claim_C7_invalid_uri_char 5 (by norm_num) [97, 63, 98] (by decide)
      [97, 63, 98] (by decide) 63 (by decide) []⟩

/-! ### Claim C8 -/

/-- Claim C8: an attestation whose 8-byte tag is neither the Bitcoin nor the
Pending tag deserializes to `Unknown` with exactly the declared payload bytes,
and re-serializing emits the tag, the same length prefix and the same payload
bytes verbatim. -/
theorem claim_C8_unknown_round_trip {tag : List Nat} (htl : tag.length = TAG_SIZE)
    (hbtc : tag ≠ BITCOIN_TAG) (hpend : tag ≠ PENDING_TAG)
    {data : List Nat} (h64 : data.length < 2 ^ 64) (rest : List Nat) :
    Attestation.deserialize (tag ++ Serializer.write_bytes data ++ rest) =
      .ok (.unknown tag data, rest) ∧
    Attestation.serialize (.unknown tag data) = tag ++ Serializer.write_bytes data := by
  constructor
  · have := att_serialize_parse (a := .unknown tag data) ⟨htl, hbtc, hpend, h64⟩ rest
    simpa [Attestation.serialize, Serializer.write_fixed_bytes, List.append_assoc]
      using this
  · rfl

/-- Witness for C8 with tag `[1,…,8]` and payload `[0xab, 0xcd]`. -/
theorem claim_C8_unknown_round_trip_witness :
    ([1, 2, 3, 4, 5, 6, 7, 8] : List Nat).length = TAG_SIZE ∧
    ([1, 2, 3, 4, 5, 6, 7, 8] : List Nat) ≠ BITCOIN_TAG ∧
    ([1, 2, 3, 4, 5, 6, 7, 8] : List Nat) ≠ PENDING_TAG ∧
    ([0xab, 0xcd] : List Nat).length < 2 ^ 64 ∧
    (Attestation.deserialize
        ([1, 2, 3, 4, 5, 6, 7, 8] ++ Serializer.write_bytes [0xab, 0xcd] ++ []) =
      .ok (.unknown [1, 2, 3, 4, 5, 6, 7, 8] [0xab, 0xcd], []) ∧
    Attestation.serialize (.unknown [1, 2, 3, 4, 5, 6, 7, 8] [0xab, 0xcd]) =
      [1, 2, 3, 4, 5, 6, 7, 8] ++ Serializer.write_bytes [0xab, 0xcd]) :=
  ⟨by decide, by decide, by decide, by norm_num,
    claim_C8_unknown_round_trip (by decide) (by decide) (by decide) (by norm_num) []⟩

/-! ### Claim C9 -/

/-- Counterexample to claim C9 as stated: a Bitcoin attestation declaring a
5-byte payload whose first byte is the one-byte varint `0x00`.  The code never
re-parses the declared payload: it reads the height varint directly from the
stream, consuming only one byte, so the height is 0 and four declared payload
bytes remain unread (the claim requires all 5 declared bytes to be consumed). -/
theorem claim_C9_counterexample :
    Attestation.deserialize (BITCOIN_TAG ++ [0x05, 0x00, 0x01, 0x02, 0x03, 0x04]) =
      .ok (.bitcoin 0, [0x01, 0x02, 0x03, 0x04]) := rfl

/-- Claim C9 (amended): deserializing a Bitcoin attestation reads the declared
payload length `L` and then ignores it, decoding the height as a single uint
taken directly from the stream; it consumes the 8 tag bytes, the length-prefix
varint, and exactly the bytes of the height varint, whatever `L` says. -/
theorem claim_C9_bitcoin_height {L height : Nat} (hL : L < 2 ^ 64)
    (hh : height < 2 ^ 64) (rest : List Nat) :
    Attestation.deserialize
        (BITCOIN_TAG ++ Serializer.write_uint L ++
          Serializer.write_uint height ++ rest) =
      .ok (.bitcoin height, rest) := by
  unfold Attestation.deserialize
  simp only [List.append_assoc]
  rw [show TAG_SIZE = BITCOIN_TAG.length from rfl]
  simp only [read_fixed_bytes_append, read_uint_write_uint hL,
    read_uint_write_uint hh]
  simp

/-- Witness for (amended) C9: declared length 5, height varint `0x00`,
leftover declared bytes `[1, 2, 3, 4]`. -/
theorem claim_C9_bitcoin_height_witness :
    (5 : Nat) < 2 ^ 64 ∧ (0 : Nat) < 2 ^ 64 ∧
    Attestation.deserialize
        (BITCOIN_TAG ++ Serializer.write_uint 5 ++
          Serializer.write_uint 0 ++ [0x01, 0x02, 0x03, 0x04]) =
      .ok (.bitcoin 0, [0x01, 0x02, 0x03, 0x04]) :=
  ⟨by norm_num, by norm_num,
    claim_C9_bitcoin_height (by norm_num) (by norm_num) [0x01, 0x02, 0x03, 0x04]⟩

/-! ### Claim C10 -/

/-- Claim C10: `read_uint` is not total over arbitrary streams: on eleven
consecutive bytes with the continuation bit set, the accumulated shift reaches
70 ≥ 64 on the eleventh byte, hitting the shift-overflow branch (a Rust
panic, modelled by `Err.panicked`) instead of returning a value or a library
`Error`. -/
theorem claim_C10_read_uint_panics :
    Deserializer.read_uint (List.replicate 11 0x80) = .error .panicked := rfl

/-! ### Claims C1, C2, C3 -/

/-- A successful `Timestamp::deserialize` run keeps the input digest as
`start_digest` and produces a digest-consistent tree. -/
theorem ts_deserialize_good {digest s : List Nat} {ts : Timestamp}
    {rest : List Nat} (h : Timestamp.deserialize digest s = .ok (ts, rest)) :
    ts.start_digest = digest ∧ StepConsistent ts.start_digest ts.first_step := by
  unfold Timestamp.deserialize at h
  split at h
  · cases h
  · rename_i st s₁ hst
    injection h with hpair
    injection hpair with hts hr
    subst hts
    subst hr
    exact ⟨rfl, (parse_step_good RECURSION_LIMIT digest none s st s₁ hst).2.1⟩

/-- Counterexample to claim C1 as stated: the stream encodes
`Append([0xaa])` with the non-minimal two-byte varint `0x81 0x00` for the
payload length 1, followed by an attestation leaf.  The parser accepts it, but
re-serialization emits the minimal varint `0x01`, so the output differs from
the input byte sequence. -/
theorem claim_C1_counterexample :
    Timestamp.deserialize_step_recurse [] none RECURSION_LIMIT
        [0xf0, 0x81, 0x00, 0xaa, 0x00, 0, 0, 0, 0, 0, 0, 0, 0, 0x00] =
      .ok (.mk (.op (.append [0xaa])) [0xaa]
            [.mk (.attestation (.unknown [0, 0, 0, 0, 0, 0, 0, 0] [])) [0xaa] []], []) ∧
    Timestamp.serialize_step_recurse
        (.mk (.op (.append [0xaa])) [0xaa]
          [.mk (.attestation (.unknown [0, 0, 0, 0, 0, 0, 0, 0] [])) [0xaa] []]) =
      some [0xf0, 0x01, 0xaa, 0x00, 0, 0, 0, 0, 0, 0, 0, 0, 0x00] ∧
    ([0xf0, 0x01, 0xaa, 0x00, 0, 0, 0, 0, 0, 0, 0, 0, 0x00] : List Nat) ≠
      [0xf0, 0x81, 0x00, 0xaa, 0x00, 0, 0, 0, 0, 0, 0, 0, 0, 0x00] := by
  refine ⟨?_, rfl, by decide⟩
  have hatt : Timestamp.deserialize_step_recurse [0xaa] none 255
      [0x00, 0, 0, 0, 0, 0, 0, 0, 0, 0x00] =
      .ok (.mk (.attestation (.unknown [0, 0, 0, 0, 0, 0, 0, 0] [])) [0xaa] [], []) := by
    rw [show (255 : Nat) = 254 + 1 from rfl, parse_step_succ]
    rfl
  rw [show RECURSION_LIMIT = 255 + 1 from rfl, parse_step_succ]
  simp only [Timestamp.tag_or_read_byte, Deserializer.read_byte,
    show Op.deserialize_with_tag 0xf0 [0x81, 0x00, 0xaa, 0x00, 0, 0, 0, 0, 0, 0, 0, 0, 0x00] =
      .ok (.append [0xaa], [0x00, 0, 0, 0, 0, 0, 0, 0, 0, 0x00]) from rfl,
    show (Op.append [0xaa]).execute [] = [0xaa] from rfl, hatt]
  norm_num

/-- Claim C1 (amended): for every byte sequence the step parser accepts,
re-serializing the resulting tree succeeds, and parsing the re-serialized
bytes (with the same input digest, budget and trailing bytes) yields the
identical tree.  Byte-for-byte equality of the streams does not hold in
general, because the parser accepts non-minimal varints and ignores declared
attestation payload lengths that the serializer always regenerates minimally
(see `claim_C1_counterexample`). -/
theorem claim_C1_round_trip {digest s : List Nat} {st : Step} {rest : List Nat}
    (h : Timestamp.deserialize_step_recurse digest none RECURSION_LIMIT s =
      .ok (st, rest)) :
    ∃ out, Timestamp.serialize_step_recurse st = some out ∧
      Timestamp.deserialize_step_recurse digest none RECURSION_LIMIT (out ++ rest) =
        .ok (st, rest) := by
  obtain ⟨hg, hc, hn⟩ := parse_step_good RECURSION_LIMIT digest none s st rest h
  obtain ⟨b, tl, hser, -⟩ := serialize_good hg
  exact ⟨b :: tl, hser,
    serialize_then_parse hg digest hc RECURSION_LIMIT hn (b :: tl) hser rest⟩

/-- Witness for (amended) C1 on a concrete accepted stream: an unknown
attestation leaf. -/
theorem claim_C1_round_trip_witness :
    Timestamp.deserialize_step_recurse [] none RECURSION_LIMIT
        [0x00, 1, 1, 1, 1, 1, 1, 1, 1, 0x00] =
      .ok (.mk (.attestation (.unknown [1, 1, 1, 1, 1, 1, 1, 1] [])) [] [], []) ∧
    (∃ out, Timestamp.serialize_step_recurse
        (.mk (.attestation (.unknown [1, 1, 1, 1, 1, 1, 1, 1] [])) [] []) = some out ∧
      Timestamp.deserialize_step_recurse [] none RECURSION_LIMIT (out ++ []) =
        .ok (.mk (.attestation (.unknown [1, 1, 1, 1, 1, 1, 1, 1] [])) [] [], [])) := by
  have hp : Timestamp.deserialize_step_recurse [] none RECURSION_LIMIT
      [0x00, 1, 1, 1, 1, 1, 1, 1, 1, 0x00] =
      .ok (.mk (.attestation (.unknown [1, 1, 1, 1, 1, 1, 1, 1] [])) [] [], []) := by
    rw [show RECURSION_LIMIT = 255 + 1 from rfl, parse_step_succ]
    rfl
  exact ⟨hp, claim_C1_round_trip hp⟩

/-- Claim C3: every tree produced by `Timestamp::deserialize` satisfies the
digest-flow invariant relative to its starting digest: each op node's output
is the op applied to its parent's output (the starting digest at the root),
and each fork node's and attestation leaf's output equals its parent's
output. -/
theorem claim_C3_digest_consistency {digest s : List Nat} {ts : Timestamp}
    {rest : List Nat} (h : Timestamp.deserialize digest s = .ok (ts, rest)) :
    ts.start_digest = digest ∧ StepConsistent ts.start_digest ts.first_step :=
  ts_deserialize_good h

/-- Witness for C3: a single Bitcoin attestation leaf on digest `[7]`. -/
theorem claim_C3_digest_consistency_witness :
    Timestamp.deserialize [7]
        ([0x00] ++ BITCOIN_TAG ++ [0x01, 0x00]) =
      .ok ({ start_digest := [7],
             first_step := .mk (.attestation (.bitcoin 0)) [7] [] }, []) ∧
    ([7] : List Nat) = [7] ∧
    StepConsistent [7] (.mk (.attestation (.bitcoin 0)) [7] []) := by
  have hp : Timestamp.deserialize [7] ([0x00] ++ BITCOIN_TAG ++ [0x01, 0x00]) =
      .ok ({ start_digest := [7],
             first_step := .mk (.attestation (.bitcoin 0)) [7] [] }, []) := by
    unfold Timestamp.deserialize
    rw [show RECURSION_LIMIT = 255 + 1 from rfl, parse_step_succ]
    rfl
  have h2 := claim_C3_digest_consistency hp
  exact ⟨hp, h2.1, h2.1 ▸ h2.2⟩

/-- Claim C2: when `DetachedTimestampFile::from_reader` succeeds, the tree was
parsed with the envelope's initial digest as the input digest of the root
step: the returned timestamp's `start_digest` is the file's `digest` field,
that digest has exactly `digest_type.digest_len()` bytes, and the root step is
digest-consistent with it. -/
theorem claim_C2_envelope_digest {s : List Nat} {f : DetachedTimestampFile}
    (h : DetachedTimestampFile.from_reader s = .ok f) :
    f.timestamp.start_digest = f.digest ∧
    f.digest.length = f.digest_type.digest_len ∧
    StepConsistent f.digest f.timestamp.first_step := by
  unfold DetachedTimestampFile.from_reader at h
  split at h
  · cases h
  · rename_i u₁ s₁ hmagic
    split at h
    · cases h
    · rename_i u₂ s₂ hversion
      split at h
      · cases h
      · rename_i tagb s₃ htag
        split at h
        · cases h
        · rename_i dt hdt
          split at h
          · cases h
          · rename_i digest s₄ hdig
            split at h
            · cases h
            · rename_i ts s₅ hts
              split at h
              · cases h
              · injection h with hf
                subst hf
                obtain ⟨hlen, -⟩ := read_fixed_bytes_ok hdig
                obtain ⟨hstart, hcons⟩ := ts_deserialize_good hts
                exact ⟨hstart, hlen, hstart ▸ hcons⟩

/-- Witness for C2 on a minimal envelope: magic, version 1, SHA-256 tag, a
32-byte zero digest, and a Bitcoin attestation leaf at height 0. -/
theorem claim_C2_envelope_digest_witness :
    DetachedTimestampFile.from_reader
        (MAGIC ++ [0x01, 0x08] ++ List.replicate 32 0 ++ [0x00] ++
          BITCOIN_TAG ++ [0x01, 0x00]) =
      .ok { digest_type := .sha256, digest := List.replicate 32 0,
            timestamp :=
              { start_digest := List.replicate 32 0,
                first_step := .mk (.attestation (.bitcoin 0))
                  (List.replicate 32 0) [] } } ∧
    (List.replicate 32 0 : List Nat) = List.replicate 32 0 ∧
    (List.replicate 32 0 : List Nat).length = DigestType.sha256.digest_len ∧
    StepConsistent (List.replicate 32 0)
      (.mk (.attestation (.bitcoin 0)) (List.replicate 32 0) []) := by
  have hts : Timestamp.deserialize (List.replicate 32 0)
      (0x00 :: (BITCOIN_TAG ++ [0x01, 0x00])) =
      .ok ({ start_digest := List.replicate 32 0,
             first_step := .mk (.attestation (.bitcoin 0))
               (List.replicate 32 0) [] }, []) := by
    unfold Timestamp.deserialize
    rw [show RECURSION_LIMIT = 255 + 1 from rfl, parse_step_succ]
    rfl
  have hdig : ∀ X : List Nat,
      Deserializer.read_fixed_bytes DigestType.sha256.digest_len
        (List.replicate 32 0 ++ X) = .ok (List.replicate 32 0, X) := by
    intro X
    rw [show DigestType.sha256.digest_len = (List.replicate (32 : Nat) (0 : Nat)).length
      from by simp [DigestType.digest_len]]
    exact read_fixed_bytes_append _ _
  have hp : DetachedTimestampFile.from_reader
      (MAGIC ++ [0x01, 0x08] ++ List.replicate 32 0 ++ [0x00] ++
        BITCOIN_TAG ++ [0x01, 0x00]) =
      .ok { digest_type := .sha256, digest := List.replicate 32 0,
            timestamp :=
              { start_digest := List.replicate 32 0,
                first_step := .mk (.attestation (.bitcoin 0))
                  (List.replicate 32 0) [] } } := by
    unfold DetachedTimestampFile.from_reader
    simp only [List.append_assoc, List.cons_append, List.nil_append]
    simp only [read_magic_append]
    simp only [show ∀ X : List Nat,
      Deserializer.read_version (0x01 :: X) = .ok ((), X) from fun X => rfl]
    simp only [show ∀ X : List Nat,
      Deserializer.read_byte ((0x08 : Nat) :: X) = .ok (8, X) from fun X => rfl]
    simp only [show DigestType.from_tag 8 = .ok .sha256 from rfl]
    simp only [hdig]
    simp only [hts]
    rfl
  have h2 := claim_C2_envelope_digest hp
  exact ⟨hp, h2.1, h2.2.1, h2.2.2⟩

/-! ### The fork-loop fuel is semantically irrelevant

The Rust `while` loop in the fork branch of `deserialize_step_recurse` has no
fuel; the model drives it by a structural fuel initialized to one more than the
length of the remaining stream.  The lemmas below justify this encoding: every
reader only consumes bytes, each loop iteration consumes at least two of them,
and the loop's result is the same for every fuel exceeding the stream length —
so the fuel-exhaustion branch is unreachable from `deserialize_step_recurse`
and the chosen fuel computes the limit behaviour of the unbounded loop. -/

/-- `read_byte` consumes exactly one byte. -/
theorem read_byte_consume {s : List Nat} {b : Nat} {r : List Nat}
    (h : Deserializer.read_byte s = .ok (b, r)) : r.length < s.length := by
  match s with
  | [] => cases h
  | x :: rest => cases h; simp

/-- `read_uint`'s loop consumes at least one byte. -/
theorem read_uint_go_consume {s : List Nat} :
    ∀ {ret shift n : Nat} {r : List Nat},
      Deserializer.read_uint_go ret shift s = .ok (n, r) → r.length < s.length := by
  induction s with
  | nil => intro ret shift n r h; simp [Deserializer.read_uint_go] at h
  | cons b rest ih =>
    intro ret shift n r h
    rw [Deserializer.read_uint_go] at h
    by_cases hs : 64 ≤ shift
    · rw [if_pos hs] at h; cases h
    · rw [if_neg hs] at h
      by_cases hb : b &&& 0x80 = 0
      · rw [if_pos hb] at h; cases h; simp
      · rw [if_neg hb] at h
        have := ih h
        simp only [List.length_cons]
        omega

/-- `read_uint` consumes at least one byte. -/
theorem read_uint_consume {s : List Nat} {n : Nat} {r : List Nat}
    (h : Deserializer.read_uint s = .ok (n, r)) : r.length < s.length :=
  read_uint_go_consume h

/-- `read_fixed_bytes` only consumes bytes. -/
theorem read_fixed_bytes_consume {n : Nat} {s d r : List Nat}
    (h : Deserializer.read_fixed_bytes n s = .ok (d, r)) : r.length ≤ s.length := by
  obtain ⟨-, hsplit⟩ := read_fixed_bytes_ok h
  rw [hsplit]
  simp

/-- `read_bytes` consumes at least the length varint. -/
theorem read_bytes_consume {min max : Nat} {s d r : List Nat}
    (h : Deserializer.read_bytes min max s = .ok (d, r)) : r.length < s.length := by
  unfold Deserializer.read_bytes at h
  split at h
  · cases h
  · rename_i n s₁ hru
    split at h
    · cases h
    · have h1 := read_uint_consume hru
      have h2 := read_fixed_bytes_consume h
      omega

/-- `Attestation::deserialize` consumes at least the tag and the length. -/
theorem att_deserialize_consume {s : List Nat} {a : Attestation} {r : List Nat}
    (h : Attestation.deserialize s = .ok (a, r)) : r.length < s.length := by
  unfold Attestation.deserialize at h
  split at h
  · cases h
  · rename_i tag s₁ htag
    have hc₁ : s₁.length ≤ s.length := read_fixed_bytes_consume htag
    have htg : tag.length = TAG_SIZE := (read_fixed_bytes_ok htag).1
    have hpos : s₁.length < s.length := by
      have := (read_fixed_bytes_ok htag).2
      subst this
      rw [List.length_append, htg]
      simp [TAG_SIZE]
    split at h
    · cases h
    · rename_i len s₂ hlen
      have hc₂ : s₂.length < s₁.length := read_uint_consume hlen
      split_ifs at h with hbtc hpend
      · split at h
        · cases h
        · rename_i height s₃ hht
          cases h
          have := read_uint_consume hht
          omega
      · split at h
        · cases h
        · rename_i uri s₃ huri
          have hc₃ := read_bytes_consume huri
          split at h
          · cases h
          · split at h
            · cases h
            · cases h; omega
      · split at h
        · cases h
        · rename_i data s₃ hdata
          cases h
          have := read_fixed_bytes_consume hdata
          omega

/-- `Op::deserialize_with_tag` only consumes bytes. -/
theorem op_deserialize_consume {tag : Nat} {s : List Nat} {o : Op} {r : List Nat}
    (h : Op.deserialize_with_tag tag s = .ok (o, r)) : r.length ≤ s.length := by
  unfold Op.deserialize_with_tag at h
  split_ifs at h
  · cases h; omega
  · cases h; omega
  · cases h; omega
  · cases h; omega
  · cases h; omega
  · split at h
    · cases h
    · rename_i d₁ s₁ hrb
      cases h
      exact le_of_lt (read_bytes_consume hrb)
  · split at h
    · cases h
    · rename_i d₁ s₁ hrb
      cases h
      exact le_of_lt (read_bytes_consume hrb)

/-- `tag_or_read_byte` only consumes bytes, and consumes one when there is no
pushed-back tag. -/
theorem tag_or_read_byte_consume {t : Option Nat} {s : List Nat} {tag : Nat}
    {r : List Nat} (h : Timestamp.tag_or_read_byte t s = .ok (tag, r)) :
    r.length ≤ s.length ∧ (t = none → r.length < s.length) := by
  match t with
  | some tg => cases h; exact ⟨le_rfl, fun hn => by cases hn⟩
  | none => exact ⟨le_of_lt (read_byte_consume h), fun _ => read_byte_consume h⟩

/-- A step parse only consumes bytes, strictly so when the tag comes from the
stream. -/
theorem parse_step_consume :
    ∀ (l : Nat) (d : List Nat) (t : Option Nat) (s : List Nat) (st : Step)
      (r : List Nat),
      Timestamp.deserialize_step_recurse d t l s = .ok (st, r) →
      r.length ≤ s.length ∧ (t = none → r.length < s.length) := by
  intro l
  induction l with
  | zero => intro d t s st r h; rw [parse_step_zero] at h; cases h
  | succ l ih =>
    intro d t s st r h
    have hloop : ∀ (fuel : Nat) (s' : List Nat) (cs : List Step) (r' : List Nat),
        Timestamp.deserialize_fork_loop d l fuel s' = .ok (cs, r') →
        r'.length < s'.length := by
      intro fuel
      induction fuel with
      | zero => intro s' cs r' hl; rw [fork_loop_zero] at hl; cases hl
      | succ fuel ihf =>
        intro s' cs r' hl
        rw [fork_loop_succ] at hl
        split at hl
        · cases hl
        · rename_i branch s₁ hbranch
          split at hl
          · cases hl
          · rename_i next_tag s₂ hnext
            have h₁ : s₁.length < s'.length := (ih d none s' branch s₁ hbranch).2 rfl
            have h₂ : s₂.length < s₁.length := read_byte_consume hnext
            split_ifs at hl with hff
            · split at hl
              · cases hl
              · rename_i branches s₃ hrest
                injection hl with hpair
                injection hpair with hcs hrr
                subst hcs
                subst hrr
                have := ihf s₂ branches s₃ hrest
                omega
            · split at hl
              · cases hl
              · rename_i last s₃ hlastp
                injection hl with hpair
                injection hpair with hcs hrr
                subst hcs
                subst hrr
                have := (ih d (some next_tag) s₂ last s₃ hlastp).1
                omega
    rw [parse_step_succ] at h
    split at h
    · cases h
    · rename_i tag s₁ htag
      obtain ⟨ht₁, ht₂⟩ := tag_or_read_byte_consume htag
      split_ifs at h with h0 h255
      · split at h
        · cases h
        · rename_i attest s₂ hatt
          cases h
          have := att_deserialize_consume hatt
          exact ⟨by omega, fun hn => by have := ht₂ hn; omega⟩
      · split at h
        · cases h
        · rename_i forks s₂ hfork
          injection h with hpair
          injection hpair with hst hr
          subst hst
          subst hr
          have := hloop (s₁.length + 1) s₁ forks s₂ hfork
          exact ⟨by omega, fun _ => by omega⟩
      · split at h
        · cases h
        · rename_i op s₂ hop
          split at h
          · cases h
          · rename_i child s₃ hchild
            injection h with hpair
            injection hpair with hst hr
            subst hst
            subst hr
            have h₁ := op_deserialize_consume hop
            have h₂ := (ih (op.execute d) none s₂ child s₃ hchild).2 rfl
            exact ⟨by omega, fun _ => by omega⟩

/-- The fork loop strictly consumes bytes. -/
theorem fork_loop_consume :
    ∀ (fuel : Nat) (d : List Nat) (cl : Nat) (s : List Nat) (cs : List Step)
      (r : List Nat),
      Timestamp.deserialize_fork_loop d cl fuel s = .ok (cs, r) →
      r.length < s.length := by
  intro fuel
  induction fuel with
  | zero => intro d cl s cs r h; rw [fork_loop_zero] at h; cases h
  | succ fuel ih =>
    intro d cl s cs r h
    rw [fork_loop_succ] at h
    split at h
    · cases h
    · rename_i branch s₁ hbranch
      split at h
      · cases h
      · rename_i next_tag s₂ hnext
        have h₁ : s₁.length < s.length :=
          (parse_step_consume cl d none s branch s₁ hbranch).2 rfl
        have h₂ : s₂.length < s₁.length := read_byte_consume hnext
        split_ifs at h with hff
        · split at h
          · cases h
          · rename_i branches s₃ hrest
            injection h with hpair
            injection hpair with hcs hrr
            subst hcs
            subst hrr
            have := ih d cl s₂ branches s₃ hrest
            omega
        · split at h
          · cases h
          · rename_i last s₃ hlastp
            injection h with hpair
            injection hpair with hcs hrr
            subst hcs
            subst hrr
            have := (parse_step_consume cl d (some next_tag) s₂ last s₃ hlastp).1
            omega

/-- Any fuel exceeding the stream length gives the fork loop the same result:
the fuel `s.length + 1` chosen in `deserialize_step_recurse` computes the limit
behaviour of Rust's unbounded `while` loop, and the fuel-exhaustion branch of
`deserialize_fork_loop` is never taken there. -/
theorem fork_loop_fuel_irrelevant :
    ∀ (f₁ f₂ : Nat) (d : List Nat) (cl : Nat) (s : List Nat),
      s.length < f₁ → s.length < f₂ →
      Timestamp.deserialize_fork_loop d cl f₁ s =
        Timestamp.deserialize_fork_loop d cl f₂ s := by
  intro f₁
  induction f₁ with
  | zero => intro f₂ d cl s h₁ h₂; omega
  | succ f₁ ih =>
    intro f₂ d cl s h₁ h₂
    match f₂, h₂ with
    | f₂ + 1, h₂ =>
      cases hp : Timestamp.deserialize_step_recurse d none cl s with
      | error e => simp only [fork_loop_succ, hp]
      | ok p =>
        obtain ⟨branch, s₁⟩ := p
        have hc₁ : s₁.length < s.length :=
          (parse_step_consume cl d none s branch s₁ hp).2 rfl
        cases hb : Deserializer.read_byte s₁ with
        | error e => simp only [fork_loop_succ, hp, hb]
        | ok q =>
          obtain ⟨tg, s₂⟩ := q
          have hc₂ : s₂.length < s₁.length := read_byte_consume hb
          by_cases hff : tg = 0xff
          · subst hff
            have hloops := ih f₂ d cl s₂ (by omega) (by omega)
            simp only [fork_loop_succ, hp, hb, hloops]
          · simp only [fork_loop_succ, hp, hb, if_neg hff]

end OTS
